import Mathlib

/-!
Shallow embedding of the in-memory event bus of this repository
(`transport/memory/memory.go`, package `memory`) and of the subject
matching routine it builds on, Go's `filepath.Match` from
`path/filepath/match.go` (Unix separator).

Strings are modelled at the rune level as `List Char`.  For ASCII
patterns and subjects — the only ones the bus is exercised with — this
coincides exactly with Go's byte-level string indexing; for well-formed
UTF-8 the rune-level view matches the rune decoding `matchChunk`
performs in its character-class and `?` cases.

The recursions of `Match` and of the range-parsing loop are not
structural; they are written with an explicit fuel argument so that
every definition evaluates by kernel reduction.  Each loop iteration
strictly consumes its input, so the fuel chosen in the wrappers is
always sufficient.
-/

namespace EventBus

/-- Strings at the rune level. -/
abbrev Str := List Char

/-- Go's `filepath.Separator` on Unix. -/
def separator : Char := '/'

/-- `getEsc` from Go `path/filepath/match.go`: reads one possibly escaped
character of a character class.  `Except.error ()` is Go's
`ErrBadPattern`.  (The `utf8.RuneError` check of the original is dropped:
the rune-level model has no ill-formed encodings.) -/
def getEsc : Str → Except Unit (Char × Str)
  | [] => .error ()
  | c :: rest =>
    if c = '-' ∨ c = ']' then .error ()
    else if c = '\\' then
      match rest with
      | [] => .error ()
      | e :: rest' => if rest' = [] then .error () else .ok (e, rest')
    else if rest = [] then .error () else .ok (c, rest)

/-- The range-parsing loop of the `[` case of `matchChunk`: consumes the
ranges of a character class up to the closing `]`, accumulating in
`matched` whether the rune `r` fell in one of them (`nrange` counts the
ranges seen).  Each iteration consumes at least one character of `chunk`,
so fuel `chunk.length + 1` never runs out. -/
def matchRanges (r : Char) : Nat → Bool → Nat → Str → Except Unit (Bool × Str)
  | 0, _, _, _ => .error ()
  | fuel + 1, matched, nrange, chunk =>
    if chunk.head? = some ']' ∧ nrange > 0 then
      .ok (matched, chunk.tail)
    else
      match getEsc chunk with
      | .error _ => .error ()
      | .ok (lo, chunk1) =>
        match (if chunk1.head? = some '-' then getEsc chunk1.tail else .ok (lo, chunk1)) with
        | .error _ => .error ()
        | .ok (hi, chunk2) =>
          matchRanges r fuel (matched || decide (lo ≤ r ∧ r ≤ hi)) (nrange + 1) chunk2

/-- `matchChunk` from Go `path/filepath/match.go`.  Checks whether `chunk`
matches the beginning of `s`: `.ok (some rest)` returns the unmatched
remainder of `s`, `.ok none` is Go's `ok = false`, `.error ()` is
`ErrBadPattern`.  `failed` is Go's flag recording that matching already
failed while the rest of the chunk is still scanned for pattern errors.
One unit of fuel is spent per loop iteration and every iteration consumes
at least one character of `chunk`. -/
def matchChunkF : Nat → Str → Str → Bool → Except Unit (Option Str)
  | _, [], s, failed => if failed then .ok none else .ok (some s)
  | 0, _ :: _, _, _ => .error ()
  | fuel + 1, c :: chunk, s, failed0 =>
    let failed := failed0 || s.isEmpty
    if c = '[' then
      -- character class; when matching already failed Go leaves `r` at the
      -- zero rune and does not consume `s`
      let r := if failed then (Char.ofNat 0) else s.headD (Char.ofNat 0)
      let s' := if failed then s else s.tail
      let negated : Bool := chunk.head? == some '^'
      let chunk1 := if negated then chunk.tail else chunk
      match matchRanges r (chunk1.length + 1) false 0 chunk1 with
      | .error _ => .error ()
      | .ok (mtch, chunk2) =>
        matchChunkF fuel chunk2 s' (failed || (mtch == negated))
    else if c = '?' then
      if failed then matchChunkF fuel chunk s true
      else
        match s with
        | [] => matchChunkF fuel chunk [] true  -- unreachable: `failed` covers empty `s`
        | s0 :: srest => matchChunkF fuel chunk srest (decide (s0 = separator))
    else if c = '\\' then
      match chunk with
      | [] => .error ()
      | e :: chunk' =>
        -- Go falls through to the default case with the escaped character
        if failed then matchChunkF fuel chunk' s true
        else
          match s with
          | [] => matchChunkF fuel chunk' [] true  -- unreachable
          | s0 :: srest => matchChunkF fuel chunk' srest (decide (e ≠ s0))
    else
      if failed then matchChunkF fuel chunk s true
      else
        match s with
        | [] => matchChunkF fuel chunk [] true  -- unreachable
        | s0 :: srest => matchChunkF fuel chunk srest (decide (c ≠ s0))

/-- `matchChunk chunk s` with the always-sufficient fuel. -/
def matchChunk (chunk s : Str) : Except Unit (Option Str) :=
  matchChunkF (chunk.length + 1) chunk s false

/-- The loop stripping leading `*`s in `scanChunk`; returns whether at
least one star was stripped together with the remaining pattern. -/
def stripStars : Str → Bool × Str
  | [] => (false, [])
  | c :: rest => if c = '*' then (true, (stripStars rest).2) else (false, c :: rest)

/-- The scan loop of `scanChunk`: splits off the leading star-free chunk,
treating `*` inside `[...]` ranges as an ordinary character and keeping
`\\`-escaped characters inside the chunk (non-Windows behaviour). -/
def scanBody : Bool → Str → Str × Str
  | _, [] => ([], [])
  | inrange, c :: rest =>
    if c = '\\' then
      match rest with
      | [] => ([c], [])
      | e :: rest' =>
        let p := scanBody inrange rest'
        (c :: e :: p.1, p.2)
    else if c = '[' then
      let p := scanBody true rest
      (c :: p.1, p.2)
    else if c = ']' then
      let p := scanBody false rest
      (c :: p.1, p.2)
    else if c = '*' then
      if inrange then
        let p := scanBody inrange rest
        (c :: p.1, p.2)
      else ([], c :: rest)
    else
      let p := scanBody inrange rest
      (c :: p.1, p.2)

/-- `scanChunk` from Go `path/filepath/match.go`: strips leading `*`s and
splits the pattern into the next star-free chunk and the rest. -/
def scanChunk (pattern : Str) : Bool × Str × Str :=
  let sp := stripStars pattern
  let p := scanBody false sp.2
  (sp.1, p.1, p.2)

/-- The `star` search loop of `Match`: tries to match `chunk` at each
successive position of `name`, never stepping past a separator.
`restEmpty` records Go's `len(pattern) == 0` — when the chunk is the last
one the match must consume all of `name`.  `.ok (some t)` is Go's
`continue Pattern` with remainder `t`. -/
def starSearch (chunk : Str) (restEmpty : Bool) : Str → Except Unit (Option Str)
  | [] => .ok none
  | c :: s =>
    if c = separator then .ok none
    else
      match matchChunk chunk s with
      | .ok (some t) =>
        if restEmpty ∧ t ≠ [] then starSearch chunk restEmpty s
        else .ok (some t)
      | .ok none => starSearch chunk restEmpty s
      | .error _ => .error ()

/-- The main loop of Go's `filepath.Match` (Unix separator).  One unit of
fuel per chunk; every iteration strictly shortens the pattern, so
`pattern.length + 1` units always suffice. -/
def matchF : Nat → Str → Str → Except Unit Bool
  | _, [], name => .ok name.isEmpty
  | 0, _ :: _, _ => .error ()
  | fuel + 1, p0 :: prest, name =>
    match scanChunk (p0 :: prest) with
    | (star, chunk, rest) =>
      if star ∧ chunk = [] then
        -- trailing `*` matches the rest of the name unless it has a separator
        .ok (!name.contains separator)
      else
        match matchChunk chunk name with
        | .ok (some t) =>
          if t = [] ∨ rest ≠ [] then matchF fuel rest t
          else if star then
            match starSearch chunk (rest = []) name with
            | .ok (some t') => matchF fuel rest t'
            | .ok none => .ok false
            | .error _ => .error ()
          else .ok false
        | .ok none =>
          if star then
            match starSearch chunk (rest = []) name with
            | .ok (some t') => matchF fuel rest t'
            | .ok none => .ok false
            | .error _ => .error ()
          else .ok false
        | .error _ => .error ()

/-- Go's `filepath.Match pattern name` on Unix. -/
def Match (pattern name : Str) : Except Unit Bool :=
  matchF (pattern.length + 1) pattern name

/-- `matchSubject` from `transport/memory/memory.go`: no wildcard means
exact comparison, otherwise `filepath.Match`, with a match error reported
as a non-match.  The Go line
`filePattern := strings.ReplaceAll(pattern, "*", "*")` replaces `*` by
itself and is the identity, so it is elided. -/
def matchSubject (pattern subject : String) : Bool :=
  if !(pattern.data.contains '*') then pattern == subject
  else
    match Match pattern.data subject.data with
    | .ok matched => matched
    | .error _ => false

-- sanity checks of the embedding against the documented behaviour
example : matchSubject "app.*.created" "app.user.created" = true := by decide
example : matchSubject "app.*.created" "app.order.created" = true := by decide
example : matchSubject "app.*.created" "app.user.updated" = false := by decide
example : matchSubject "app.*.created" "user.created" = false := by decide
example : matchSubject "app.*.created" "app.user.created.v2" = false := by decide
example : matchSubject "a.b" "a.b" = true := by decide
example : matchSubject "a.b" "a.c" = false := by decide
example : matchSubject "app.*.created" "app.x.y.created" = true := by decide
example : matchSubject "app.*.created" "app..created" = true := by decide
example : matchSubject "a?" "ab" = false := by decide
example : matchSubject "a?*" "abc" = true := by decide
example : matchSubject "[ab]*c" "ac" = true := by decide
example : matchSubject "[ab]*c" "[ab]c" = false := by decide
example : matchSubject "[^a]*" "ba" = true := by decide
example : matchSubject "[^b]*" "ba" = false := by decide
example : matchSubject "[*" "a" = false := by decide
example : matchSubject "*" "abc" = true := by decide
example : matchSubject "*" "a/b" = false := by decide

/-! ## The in-memory event bus

`MemoryBus` from `transport/memory/memory.go`.  Handlers are opaque
callables in Go; the bus never inspects them, so they are modelled by an
identifier.  A handler's behaviour — the error value its invocation
returns — lives in an `outcome` environment passed to `Publish`, where
the source discards it (`_ = handler(ctx, event)`).  Go maps are
modelled as insertion-ordered association lists; Go's map iteration
order is unspecified, and no theorem below depends on the relative
order of entries with distinct keys.  Go errors are `Option String`
(`none` = `nil`). -/

/-- Event payloads are opaque to the bus (`*cloudevents.Event`); only
identity matters here.  `Publish` receives `Option Event`, `none` being
Go's `nil` pointer. -/
structure Event where
  tag : Nat
deriving DecidableEq, Repr

/-- Handlers are identified by an id (Go stores the function values
themselves; the bus never calls anything but the stored value, so an id
is a faithful stand-in). -/
abbrev HandlerId := Nat

/-- Go map indexing `m[k]` with the type's zero value `d` for a missing
key. -/
def mapGet (m : List (String × α)) (k : String) (d : α) : α :=
  match m.find? (fun e => e.1 == k) with
  | some e => e.2
  | none => d

/-- Go map assignment `m[k] = v`: replaces the entry when the key is
present, appends it otherwise. -/
def mapSet (m : List (String × α)) (k : String) (v : α) : List (String × α) :=
  if m.any (fun e => e.1 == k) then
    m.map (fun e => if e.1 == k then (k, v) else e)
  else m ++ [(k, v)]

/-- `groupIndex`: subject pattern → group name → next-handler cursor. -/
abbrev GroupIndex := List (String × List (String × Nat))

/-- The `MemoryBus` struct: broadcast registry, group registry and group
cursors.  (The mutex only serialises accesses and has no sequential
content.) -/
structure MemoryBus where
  handlers : List (String × List HandlerId)
  groups : List (String × List (String × List HandlerId))
  groupIndex : GroupIndex
deriving DecidableEq, Repr

/-- `NewMemoryBus`: all three registries empty. -/
def NewMemoryBus : MemoryBus := ⟨[], [], []⟩

/-- `MemoryBus.Subscribe` (broadcast mode): validates, then appends the
handler to the pattern's slice.  Result: (returned error, new state). -/
def MemoryBus.Subscribe (b : MemoryBus) (subject : String) (handler : Option HandlerId) :
    Option String × MemoryBus :=
  if subject = "" then (some "subject is required", b)
  else
    match handler with
    | none => (some "handler is required", b)
    | some h =>
      (none, { b with
        handlers := mapSet b.handlers subject (mapGet b.handlers subject [] ++ [h]) })

/-- `MemoryBus.SubscribeWithHandlerGroup`: validates, lazily initialises
the per-subject maps, then appends the handler to the group's slice. -/
def MemoryBus.SubscribeWithHandlerGroup (b : MemoryBus) (subject group : String)
    (handler : Option HandlerId) : Option String × MemoryBus :=
  if subject = "" then (some "subject is required", b)
  else if group = "" then (some "group is required", b)
  else
    match handler with
    | none => (some "handler is required", b)
    | some h =>
      let gs := mapGet b.groups subject []
      (none, { b with
        groups := mapSet b.groups subject (mapSet gs group (mapGet gs group [] ++ [h])),
        -- `if b.groupIndex[subject] == nil { b.groupIndex[subject] = make(...) }`
        groupIndex := mapSet b.groupIndex subject (mapGet b.groupIndex subject []) })

/-- The broadcast loop of `Publish`: for every pattern entry matching the
subject, invoke each of its handlers in slice order, discarding the
returned error (`_ = handler(ctx, event)`).  The returned list is the
invocation trace. -/
def broadcastPass (outcome : HandlerId → Event → Option String) (subject : String)
    (ev : Event) (handlers : List (String × List HandlerId)) : List HandlerId :=
  handlers.foldl
    (fun acc pe =>
      if matchSubject pe.1 subject then
        acc ++ pe.2.map (fun h => let _ := outcome h ev; h)
      else acc)
    []

/-- The cursor read `b.groupIndex[pattern][group]` (zero when absent). -/
def cursor (gi : GroupIndex) (pattern group : String) : Nat :=
  mapGet (mapGet gi pattern []) group 0

/-- The cursor increment `b.groupIndex[pattern][group]++`. -/
def bumpCursor (gi : GroupIndex) (pattern group : String) : GroupIndex :=
  mapSet gi pattern
    (mapSet (mapGet gi pattern []) group (mapGet (mapGet gi pattern []) group 0 + 1))

/-- One group's dispatch inside the group loop of `Publish`: an empty
group is skipped, otherwise the handler at `cursor % len` is invoked
(error discarded) and the cursor incremented. -/
def groupInnerStep (outcome : HandlerId → Event → Option String) (ev : Event)
    (pattern : String) (acc : List HandlerId × GroupIndex) (ge : String × List HandlerId) :
    List HandlerId × GroupIndex :=
  if ge.2.length = 0 then acc
  else
    let index := cursor acc.2 pattern ge.1 % ge.2.length
    let h := ge.2.getD index 0
    let _ := outcome h ev
    (acc.1 ++ [h], bumpCursor acc.2 pattern ge.1)

/-- One pattern entry of the group loop of `Publish`: if the pattern
matches, dispatch every group registered under it. -/
def groupStep (outcome : HandlerId → Event → Option String) (subject : String) (ev : Event)
    (acc : List HandlerId × GroupIndex) (pe : String × List (String × List HandlerId)) :
    List HandlerId × GroupIndex :=
  if matchSubject pe.1 subject then pe.2.foldl (groupInnerStep outcome ev pe.1) acc
  else acc

/-- The group loop of `Publish`: threads the cursor table through the
per-group dispatches (Go increments `b.groupIndex[pattern][group]` in
place; each (pattern, group) pair is visited at most once per publish). -/
def groupPass (outcome : HandlerId → Event → Option String) (subject : String) (ev : Event)
    (groups : List (String × List (String × List HandlerId))) (gi : GroupIndex) :
    List HandlerId × GroupIndex :=
  groups.foldl (groupStep outcome subject ev) ([], gi)

/-- `MemoryBus.Publish`: validates subject and event, then runs the
broadcast pass followed by the group pass.  Result: (returned error,
ids of invoked handlers in invocation order, new state). -/
def MemoryBus.Publish (b : MemoryBus) (outcome : HandlerId → Event → Option String)
    (subject : String) (event : Option Event) :
    Option String × List HandlerId × MemoryBus :=
  if subject = "" then (some "subject is required", [], b)
  else
    match event with
    | none => (some "event is required", [], b)
    | some ev =>
      let btrace := broadcastPass outcome subject ev b.handlers
      let g := groupPass outcome subject ev b.groups b.groupIndex
      (none, btrace ++ g.1, { b with groupIndex := g.2 })

/-- `MemoryBus.Close`: always succeeds and resets all three registries to
fresh empty maps. -/
def MemoryBus.Close (_b : MemoryBus) : Option String × MemoryBus :=
  (none, ⟨[], [], []⟩)

section BusChecks

-- sanity checks of the bus semantics

private def noFail : HandlerId → Event → Option String := fun _ _ => none

example :
    ((NewMemoryBus.Subscribe "a.b" (some 7)).2.Publish noFail "a.b" (some ⟨0⟩)).2.1 = [7] := by
  decide

example :
    ((NewMemoryBus.Subscribe "a.b" (some 7)).2.Publish noFail "a.c" (some ⟨0⟩)).2.1 = [] := by
  decide

example :
    (((NewMemoryBus.SubscribeWithHandlerGroup "j" "g" (some 1)).2.SubscribeWithHandlerGroup
      "j" "g" (some 2)).2.Publish noFail "j" (some ⟨0⟩)).2.1 = [1] := by
  decide

example :
    ((((NewMemoryBus.SubscribeWithHandlerGroup "j" "g" (some 1)).2.SubscribeWithHandlerGroup
      "j" "g" (some 2)).2.Publish noFail "j" (some ⟨0⟩)).2.2.Publish noFail "j"
        (some ⟨0⟩)).2.1 = [2] := by
  decide

end BusChecks

/-! ## Specification-side matching rules

Definitions in this section are written from the specification's words,
not from the source; they exist to be compared against `matchSubject`. -/

/-- Modelled from the spec: the dot-delimited segments of a subject
("segment-wise matching over dot-delimited segments"). -/
def splitDots : Str → List Str
  | [] => [[]]
  | c :: rest =>
    let r := splitDots rest
    if c = '.' then [] :: r
    else (c :: r.headD []) :: r.tail

/-- Modelled from the spec: segment lists match when they have equal
length, `*` segments match exactly one non-empty subject segment and all
other segments match literally. -/
def segsMatch : List Str → List Str → Bool
  | [], [] => true
  | p :: ps, s :: ss => (if p = ['*'] then !s.isEmpty else p == s) && segsMatch ps ss
  | _, _ => false

/-- Modelled from the spec: the claimed matching rule — no wildcard means
exact equality, otherwise single-segment wildcard matching over
dot-delimited segments. -/
def specSegMatch (pattern subject : String) : Bool :=
  if !(pattern.data.contains '*') then pattern == subject
  else segsMatch (splitDots pattern.data) (splitDots subject.data)

example : specSegMatch "app.*.created" "app.user.created" = true := by decide
example : specSegMatch "app.*.created" "app.user.created.v2" = false := by decide
example : specSegMatch "app.*.created" "app..created" = false := by decide

/-- Modelled from the spec as amended: glob matching in which `*` matches
any (possibly empty) run of non-separator characters and every other
character matches literally, the whole subject being consumed.  Written
with fuel so that it evaluates by kernel reduction; both recursive calls
strictly decrease `p.length + s.length`. -/
def globF : Nat → Str → Str → Bool
  | 0, _, _ => false
  | _ + 1, [], s => s.isEmpty
  | fuel + 1, c :: p, s =>
    if c = '*' then
      globF fuel p s ||
        (match s with
         | [] => false
         | d :: s' => decide (d ≠ separator) && globF fuel (c :: p) s')
    else
      match s with
      | [] => false
      | d :: s' => decide (c = d) && globF fuel p s'

/-- Glob matching with the always-sufficient fuel. -/
def glob (p s : Str) : Bool := globF (p.length + s.length + 1) p s

example : glob "app.*.created".data "app.user.created".data = true := by decide
example : glob "app.*.created".data "app.x.y.created".data = true := by decide
example : glob "app.*.created".data "app.user.created.v2".data = false := by decide

/-- The pattern fragment on which the glob equivalence is proved: no `?`,
no character class, no escape.  (`*` and every literal character,
including `]`, are allowed.) -/
def SimplePat (p : Str) : Prop := '?' ∉ p ∧ '[' ∉ p ∧ '\\' ∉ p

instance (p : Str) : Decidable (SimplePat p) := by
  unfold SimplePat; infer_instance

/-! ## Map lemmas -/

theorem mapGet_nil (k : String) (d : α) : mapGet [] k d = d := rfl

theorem mapGet_cons (e : String × α) (m : List (String × α)) (k : String) (d : α) :
    mapGet (e :: m) k d = if e.1 = k then e.2 else mapGet m k d := by
  simp only [mapGet, List.find?_cons]
  by_cases he : e.1 = k
  · simp [he]
  · simp [he, beq_eq_false_iff_ne.2 he]

theorem mapSet_nil (k : String) (v : α) : mapSet [] k v = [(k, v)] := rfl

theorem mapSet_cons_ne (e : String × α) (m : List (String × α)) (k : String) (v : α)
    (he : e.1 ≠ k) : mapSet (e :: m) k v = e :: mapSet m k v := by
  have hbe : (e.1 == k) = false := beq_eq_false_iff_ne.2 he
  by_cases hm : m.any (fun e => e.1 == k)
  · simp [mapSet, hbe, hm, he]
  · simp [mapSet, hbe, hm]

theorem mapSet_cons_eq (e : String × α) (m : List (String × α)) (k : String) (v : α)
    (he : e.1 = k) :
    mapSet (e :: m) k v = (k, v) :: m.map (fun e => if e.1 == k then (k, v) else e) := by
  simp only [mapSet, List.any_cons, he, beq_self_eq_true, Bool.true_or, if_true,
    List.map_cons]

/-- Entries whose key differs from `k` are untouched by the rewriting that
`mapSet` performs on a present key. -/
theorem mapGet_mapSetFn (m : List (String × α)) (k k' : String) (v : α) (d : α)
    (h : k' ≠ k) :
    mapGet (m.map (fun e => if e.1 == k then (k, v) else e)) k' d = mapGet m k' d := by
  induction m with
  | nil => rfl
  | cons e m ih =>
    rw [List.map_cons, mapGet_cons, mapGet_cons]
    by_cases he : e.1 = k
    · have h1 : (if (e.1 == k) = true then (k, v) else e) = (k, v) := by
        simp [he]
      rw [h1]
      have h2 : ¬ ((k, v).1 = k') := fun hh => h hh.symm
      have h3 : ¬ (e.1 = k') := by rw [he]; exact fun hh => h hh.symm
      rw [if_neg h2, if_neg h3]
      exact ih
    · have h1 : (if (e.1 == k) = true then (k, v) else e) = e := by
        simp [beq_eq_false_iff_ne.2 he]
      rw [h1]
      by_cases he' : e.1 = k'
      · rw [if_pos he', if_pos he']
      · rw [if_neg he', if_neg he']
        exact ih

/-- Reading back through a map assignment. -/
theorem mapGet_mapSet (m : List (String × α)) (k k' : String) (v d : α) :
    mapGet (mapSet m k v) k' d = if k' = k then v else mapGet m k' d := by
  induction m with
  | nil =>
    rw [mapSet_nil, mapGet_cons]
    by_cases hk : k' = k
    · rw [if_pos (show (k, v).1 = k' from hk.symm), if_pos hk]
    · rw [if_neg (show ¬ ((k, v).1 = k') from fun hh => hk hh.symm), if_neg hk]
  | cons e m ih =>
    by_cases he : e.1 = k
    · rw [mapSet_cons_eq e m k v he, mapGet_cons]
      by_cases hk : k' = k
      · rw [if_pos (show (k, v).1 = k' from hk.symm), if_pos hk]
      · have h3 : ¬ (e.1 = k') := by rw [he]; exact fun hh => hk hh.symm
        rw [if_neg (show ¬ ((k, v).1 = k') from fun hh => hk hh.symm), if_neg hk,
          mapGet_mapSetFn m k k' v d hk, mapGet_cons, if_neg h3]
    · rw [mapSet_cons_ne e m k v he, mapGet_cons, mapGet_cons]
      by_cases he' : e.1 = k'
      · have hkk : ¬ (k' = k) := fun hh => he (he'.trans hh)
        rw [if_neg hkk, if_pos he', if_pos he']
      · rw [if_neg he', if_neg he', ih]

theorem mapGet_mapSet_self (m : List (String × α)) (k : String) (v d : α) :
    mapGet (mapSet m k v) k d = v := by
  simp [mapGet_mapSet]

theorem mapGet_mapSet_ne (m : List (String × α)) (k k' : String) (v d : α) (h : k' ≠ k) :
    mapGet (mapSet m k v) k' d = mapGet m k' d := by
  simp [mapGet_mapSet, h]

/-- Effect of one cursor increment on every cursor read. -/
theorem cursor_bumpCursor (gi : GroupIndex) (p g p' g' : String) :
    cursor (bumpCursor gi p g) p' g' =
      if p' = p ∧ g' = g then cursor gi p g + 1 else cursor gi p' g' := by
  unfold cursor bumpCursor
  by_cases hp : p' = p
  · subst hp
    rw [mapGet_mapSet_self]
    by_cases hg : g' = g
    · subst hg; simp [mapGet_mapSet_self]
    · simp [mapGet_mapSet_ne _ _ _ _ _ hg, hg]
  · rw [mapGet_mapSet_ne _ _ _ _ _ hp]
    simp [hp]

/-! ## Dispatch lemmas -/

/-- The invocation list produced by the broadcast pass, in closed
recursive form. -/
def broadcastList (subj : String) : List (String × List HandlerId) → List HandlerId
  | [] => []
  | pe :: hs => (if matchSubject pe.1 subj then pe.2 else []) ++ broadcastList subj hs

theorem broadcastPass_acc (o : HandlerId → Event → Option String) (subj : String)
    (ev : Event) (hs : List (String × List HandlerId)) :
    ∀ acc : List HandlerId,
      hs.foldl
        (fun acc pe =>
          if matchSubject pe.1 subj then acc ++ pe.2.map (fun h => let _ := o h ev; h)
          else acc) acc
        = acc ++ broadcastList subj hs := by
  induction hs with
  | nil => intro acc; simp [broadcastList]
  | cons pe hs ih =>
    intro acc
    rw [List.foldl_cons]
    have hmap : pe.2.map (fun h => let _ := o h ev; h) = pe.2 := by simp
    by_cases hm : matchSubject pe.1 subj
    · rw [if_pos hm, hmap, ih]
      simp [broadcastList, hm]
    · rw [if_neg hm, ih]
      simp [broadcastList, hm]

theorem broadcastPass_eq (o : HandlerId → Event → Option String) (subj : String)
    (ev : Event) (hs : List (String × List HandlerId)) :
    broadcastPass o subj ev hs = broadcastList subj hs := by
  unfold broadcastPass
  rw [broadcastPass_acc o subj ev hs]
  simp

/-- A handler list registered under a matching pattern appears contiguously
and in order inside the broadcast trace. -/
theorem broadcastList_segment (subj : String) (hs : List (String × List HandlerId))
    (pat : String) (l : List HandlerId) (hmem : (pat, l) ∈ hs)
    (hm : matchSubject pat subj = true) : l <:+: broadcastList subj hs := by
  induction hs with
  | nil => cases hmem
  | cons pe hs ih =>
    rcases List.mem_cons.1 hmem with hh | ht
    · subst hh
      refine ⟨[], broadcastList subj hs, ?_⟩
      simp [broadcastList, hm]
    · rcases ih ht with ⟨u, t, hut⟩
      refine ⟨(if matchSubject pe.1 subj then pe.2 else []) ++ u, t, ?_⟩
      have hunf : broadcastList subj (pe :: hs) =
          (if matchSubject pe.1 subj then pe.2 else []) ++ broadcastList subj hs := rfl
      rw [hunf, ← hut]
      simp [List.append_assoc]

/-- The trace accumulator of the per-group fold only ever grows at the
back; the cursor table threads independently of it. -/
theorem groupInnerFold_acc (o : HandlerId → Event → Option String) (ev : Event)
    (pat : String) (gm : List (String × List HandlerId)) :
    ∀ (t : List HandlerId) (gi : GroupIndex),
      gm.foldl (groupInnerStep o ev pat) (t, gi) =
        (t ++ (gm.foldl (groupInnerStep o ev pat) ([], gi)).1,
         (gm.foldl (groupInnerStep o ev pat) ([], gi)).2) := by
  induction gm with
  | nil => intro t gi; simp
  | cons ge gm ih =>
    intro t gi
    rw [List.foldl_cons, List.foldl_cons]
    by_cases hz : ge.2.length = 0
    · simp only [groupInnerStep, if_pos hz]
      exact ih t gi
    · simp only [groupInnerStep, if_neg hz, List.nil_append]
      rw [ih (t ++ [ge.2.getD (cursor gi pat ge.1 % ge.2.length) 0]) (bumpCursor gi pat ge.1),
        ih [ge.2.getD (cursor gi pat ge.1 % ge.2.length) 0] (bumpCursor gi pat ge.1)]
      simp

/-- Same accumulation property for the outer (per-pattern) fold. -/
theorem groupFold_acc (o : HandlerId → Event → Option String) (subj : String) (ev : Event)
    (gs : List (String × List (String × List HandlerId))) :
    ∀ (t : List HandlerId) (gi : GroupIndex),
      gs.foldl (groupStep o subj ev) (t, gi) =
        (t ++ (gs.foldl (groupStep o subj ev) ([], gi)).1,
         (gs.foldl (groupStep o subj ev) ([], gi)).2) := by
  induction gs with
  | nil => intro t gi; simp
  | cons pe gs ih =>
    intro t gi
    rw [List.foldl_cons, List.foldl_cons]
    by_cases hm : matchSubject pe.1 subj
    · simp only [groupStep, if_pos hm]
      rw [groupInnerFold_acc o ev pe.1 pe.2 t gi]
      rcases hinner : pe.2.foldl (groupInnerStep o ev pe.1) ([], gi) with ⟨ti, gii⟩
      rw [ih (t ++ ti) gii, ih ti gii]
      simp
    · simp only [groupStep, if_neg hm]
      exact ih t gi

/-- The success path of `Publish` in one equation. -/
theorem publish_ok (b : MemoryBus) (o : HandlerId → Event → Option String) (s : String)
    (ev : Event) (hs : s ≠ "") :
    b.Publish o s (some ev) =
      (none,
       broadcastPass o s ev b.handlers ++ (groupPass o s ev b.groups b.groupIndex).1,
       { b with groupIndex := (groupPass o s ev b.groups b.groupIndex).2 }) := by
  simp [MemoryBus.Publish, hs]

/-! ## Validation and lifecycle claims -/

/-- C4: `Publish` fails with a validation error and performs no dispatch
iff the subject is empty or the event is nil; with a non-empty subject
and non-nil event it succeeds, a publish matching no registered pattern
included. -/
theorem publish_validation_iff (b : MemoryBus) (o : HandlerId → Event → Option String)
    (s : String) (e : Option Event) :
    ((b.Publish o s e).1 ≠ none ↔ (s = "" ∨ e = none)) ∧
    (s = "" → b.Publish o s e = (some "subject is required", [], b)) ∧
    (s ≠ "" → e = none → b.Publish o s e = (some "event is required", [], b)) ∧
    ((s = "" ∨ e = none) → (b.Publish o s e).2.1 = [] ∧ (b.Publish o s e).2.2 = b) ∧
    (s ≠ "" → e ≠ none → (b.Publish o s e).1 = none) := by
  by_cases hs : s = ""
  · refine ⟨?_, ?_, ?_, ?_, ?_⟩ <;> simp [MemoryBus.Publish, hs]
  · cases e with
    | none => refine ⟨?_, ?_, ?_, ?_, ?_⟩ <;> simp [MemoryBus.Publish, hs]
    | some ev => refine ⟨?_, ?_, ?_, ?_, ?_⟩ <;> simp [MemoryBus.Publish, hs]

theorem publish_validation_iff_witness :
    (NewMemoryBus.Publish (fun _ _ => none) "" (some ⟨0⟩)).1 ≠ none ∧
    (NewMemoryBus.Publish (fun _ _ => none) "a" (some ⟨0⟩)).1 = none :=
  ⟨(publish_validation_iff NewMemoryBus (fun _ _ => none) "" (some ⟨0⟩)).1.mpr (Or.inl rfl),
   (publish_validation_iff NewMemoryBus (fun _ _ => none) "a" (some ⟨0⟩)).2.2.2.2
     (by decide) (by simp)⟩

/-- C7: both registration operations validate their inputs with a
distinct message per violated field, check order subject, group, handler,
and register nothing on failure. -/
theorem subscribe_validation (b : MemoryBus) (s g : String) (h : Option HandlerId) :
    ((b.SubscribeWithHandlerGroup s g h).1 ≠ none ↔ (s = "" ∨ g = "" ∨ h = none)) ∧
    ((b.SubscribeWithHandlerGroup s g h).1 ≠ none → (b.SubscribeWithHandlerGroup s g h).2 = b) ∧
    (s = "" → (b.SubscribeWithHandlerGroup s g h).1 = some "subject is required") ∧
    (s ≠ "" → g = "" → (b.SubscribeWithHandlerGroup s g h).1 = some "group is required") ∧
    (s ≠ "" → g ≠ "" → h = none →
      (b.SubscribeWithHandlerGroup s g h).1 = some "handler is required") ∧
    ((b.Subscribe s h).1 ≠ none ↔ (s = "" ∨ h = none)) ∧
    (s = "" → (b.Subscribe s h).1 = some "subject is required") ∧
    ((b.Subscribe s h).1 ≠ none → (b.Subscribe s h).2 = b) := by
  by_cases hs : s = ""
  · refine ⟨?_, ?_, ?_, ?_, ?_, ?_, ?_, ?_⟩ <;>
      simp [MemoryBus.SubscribeWithHandlerGroup, MemoryBus.Subscribe, hs]
  · by_cases hg : g = ""
    · cases h <;>
        · refine ⟨?_, ?_, ?_, ?_, ?_, ?_, ?_, ?_⟩ <;>
            simp [MemoryBus.SubscribeWithHandlerGroup, MemoryBus.Subscribe, hs, hg]
    · cases h <;>
        · refine ⟨?_, ?_, ?_, ?_, ?_, ?_, ?_, ?_⟩ <;>
            simp [MemoryBus.SubscribeWithHandlerGroup, MemoryBus.Subscribe, hs, hg]

theorem subscribe_validation_witness :
    (NewMemoryBus.SubscribeWithHandlerGroup "a" "" (some 1)).1 = some "group is required" ∧
    (NewMemoryBus.Subscribe "" (some 1)).1 = some "subject is required" :=
  ⟨(subscribe_validation NewMemoryBus "a" "" (some 1)).2.2.2.1 (by decide) rfl,
   (subscribe_validation NewMemoryBus "" "x" (some 1)).2.2.2.2.2.2.1 rfl⟩

/-- C6: `Close` always succeeds and resets the bus to its just-constructed
state; afterwards a valid publish delivers to nobody without error, and a
fresh subscription makes delivery resume. -/
theorem close_resets_bus (b : MemoryBus) :
    b.Close = (none, NewMemoryBus) ∧
    (∀ (o : HandlerId → Event → Option String) (s : String) (ev : Event), s ≠ "" →
      b.Close.2.Publish o s (some ev) = (none, [], NewMemoryBus)) ∧
    (∀ (o : HandlerId → Event → Option String) (s : String) (h : HandlerId) (ev : Event),
      s ≠ "" → matchSubject s s = true →
      (b.Close.2.Subscribe s (some h)).2.Publish o s (some ev) =
        (none, [h], (b.Close.2.Subscribe s (some h)).2)) := by
  refine ⟨rfl, ?_, ?_⟩
  · intro o s ev hs
    simp [MemoryBus.Close, MemoryBus.Publish, hs, broadcastPass, groupPass, NewMemoryBus]
  · intro o s h ev hs hm
    simp [MemoryBus.Close, MemoryBus.Subscribe, MemoryBus.Publish, hs, hm,
      broadcastPass, groupPass, mapSet, mapGet, NewMemoryBus]

theorem close_resets_bus_witness :
    (NewMemoryBus.Subscribe "a.b" (some 3)).2.Close.2.Publish (fun _ _ => none) "a.b"
        (some ⟨0⟩) = (none, [], NewMemoryBus) ∧
    ((NewMemoryBus.Subscribe "a.b" (some 3)).2.Close.2.Subscribe "a.b" (some 4)).2.Publish
        (fun _ _ => none) "a.b" (some ⟨0⟩) =
      (none, [4],
        ((NewMemoryBus.Subscribe "a.b" (some 3)).2.Close.2.Subscribe "a.b" (some 4)).2) :=
  ⟨(close_resets_bus (NewMemoryBus.Subscribe "a.b" (some 3)).2).2.1 (fun _ _ => none)
      "a.b" ⟨0⟩ (by decide),
   (close_resets_bus (NewMemoryBus.Subscribe "a.b" (some 3)).2).2.2 (fun _ _ => none)
      "a.b" 4 ⟨0⟩ (by decide) (by decide)⟩

/-- C2: handler outcomes are discarded — `Publish` returns the same
result, trace and state whatever the handlers return, it still succeeds,
and every broadcast handler under a matching pattern is invoked. -/
theorem publish_handler_failures_isolated (o o' : HandlerId → Event → Option String)
    (b : MemoryBus) (s : String) (ev : Event) (hs : s ≠ "") :
    b.Publish o s (some ev) = b.Publish o' s (some ev) ∧
    (b.Publish o s (some ev)).1 = none ∧
    (∀ pat l h, (pat, l) ∈ b.handlers → matchSubject pat s = true → h ∈ l →
      h ∈ (b.Publish o s (some ev)).2.1) := by
  refine ⟨rfl, ?_, ?_⟩
  · simp [MemoryBus.Publish, hs]
  · intro pat l h hmem hm hml
    rw [publish_ok b o s ev hs]
    simp only []
    apply List.mem_append.2
    left
    rw [broadcastPass_eq]
    exact (broadcastList_segment s b.handlers pat l hmem hm).subset hml

theorem publish_handler_failures_isolated_witness :
    (NewMemoryBus.Subscribe "t" (some 1)).2.Publish (fun _ _ => some "boom") "t" (some ⟨0⟩) =
      (NewMemoryBus.Subscribe "t" (some 1)).2.Publish (fun _ _ => none) "t" (some ⟨0⟩) ∧
    1 ∈ ((NewMemoryBus.Subscribe "t" (some 1)).2.Publish (fun _ _ => some "boom") "t"
      (some ⟨0⟩)).2.1 :=
  ⟨(publish_handler_failures_isolated (fun _ _ => some "boom") (fun _ _ => none)
      (NewMemoryBus.Subscribe "t" (some 1)).2 "t" ⟨0⟩ (by decide)).1,
   (publish_handler_failures_isolated (fun _ _ => some "boom") (fun _ _ => none)
      (NewMemoryBus.Subscribe "t" (some 1)).2 "t" ⟨0⟩ (by decide)).2.2 "t" [1] 1
      (by decide) (by decide) (by decide)⟩

/-- C5: `Subscribe` appends to the pattern's broadcast slice, touching no
other registration, and on a matching publish every handler of a
registered pattern entry is invoked contiguously in registration order. -/
theorem subscribe_broadcast_order (b : MemoryBus) (s : String) (h : HandlerId)
    (hs : s ≠ "") :
    (b.Subscribe s (some h)).1 = none ∧
    mapGet (b.Subscribe s (some h)).2.handlers s [] = mapGet b.handlers s [] ++ [h] ∧
    (∀ s', s' ≠ s →
      mapGet (b.Subscribe s (some h)).2.handlers s' [] = mapGet b.handlers s' []) ∧
    (b.Subscribe s (some h)).2.groups = b.groups ∧
    (b.Subscribe s (some h)).2.groupIndex = b.groupIndex ∧
    (∀ (o : HandlerId → Event → Option String) (subj : String) (ev : Event)
      (pat : String) (l : List HandlerId),
      (pat, l) ∈ b.handlers → matchSubject pat subj = true → subj ≠ "" →
      l <:+: (b.Publish o subj (some ev)).2.1) := by
  refine ⟨?_, ?_, ?_, ?_, ?_, ?_⟩
  · simp [MemoryBus.Subscribe, hs]
  · simp [MemoryBus.Subscribe, hs, mapGet_mapSet_self]
  · intro s' hne
    simp [MemoryBus.Subscribe, hs, mapGet_mapSet_ne _ _ _ _ _ hne]
  · simp [MemoryBus.Subscribe, hs]
  · simp [MemoryBus.Subscribe, hs]
  · intro o subj ev pat l hmem hm hsub
    rw [publish_ok b o subj ev hsub]
    simp only []
    rcases broadcastList_segment subj b.handlers pat l hmem hm with ⟨u, t, hut⟩
    refine ⟨u, t ++ (groupPass o subj ev b.groups b.groupIndex).1, ?_⟩
    rw [broadcastPass_eq, ← hut]
    simp [List.append_assoc]

/-! ## Group dispatch claims -/

/-- The bus after registering `h1` then `h2` in the same group under the
same pattern, starting from a fresh bus. -/
def roundRobinBus (pat g : String) (h1 h2 : HandlerId) : MemoryBus :=
  ((NewMemoryBus.SubscribeWithHandlerGroup pat g (some h1)).2.SubscribeWithHandlerGroup
    pat g (some h2)).2

/-- `n` consecutive publishes of the same event to the same subject,
collecting each publish's invocation trace in order. -/
def publishSeq (o : HandlerId → Event → Option String) (subj : String) (ev : Event) :
    Nat → MemoryBus → MemoryBus × List (List HandlerId)
  | 0, b => (b, [])
  | n + 1, b =>
    let p := b.Publish o subj (some ev)
    let r := publishSeq o subj ev n p.2.2
    (r.1, p.2.1 :: r.2)

theorem publishSeq_roundRobin (o : HandlerId → Event → Option String)
    (pat g subj : String) (h1 h2 : HandlerId) (ev : Event)
    (hm : matchSubject pat subj = true) (hsub : subj ≠ "") :
    ∀ (n : Nat) (b : MemoryBus) (c : Nat),
      b.handlers = [] → b.groups = [(pat, [(g, [h1, h2])])] →
      cursor b.groupIndex pat g = c →
      (publishSeq o subj ev n b).2 =
        (List.range n).map (fun k => [if (c + k) % 2 = 0 then h1 else h2]) := by
  intro n
  induction n with
  | zero => intro b c _ _ _; simp [publishSeq]
  | succ n ih =>
    intro b c hh hg hc
    have hpub : b.Publish o subj (some ev) =
        (none, [if c % 2 = 0 then h1 else h2],
          { b with groupIndex := bumpCursor b.groupIndex pat g }) := by
      rw [publish_ok b o subj ev hsub, hh, hg]
      simp only [broadcastPass, List.foldl_nil, groupPass, List.foldl_cons, List.foldl_nil,
        groupStep, hm, if_true, groupInnerStep, List.nil_append]
      rw [hc]
      rcases Nat.mod_two_eq_zero_or_one c with hpar | hpar <;>
        simp [hpar, List.getD]
    have hstep : publishSeq o subj ev (n + 1) b =
        ((publishSeq o subj ev n (b.Publish o subj (some ev)).2.2).1,
          (b.Publish o subj (some ev)).2.1 ::
            (publishSeq o subj ev n (b.Publish o subj (some ev)).2.2).2) := rfl
    rw [hstep, hpub]
    have hrec := ih { b with groupIndex := bumpCursor b.groupIndex pat g } (c + 1)
      (by simpa using hh) (by simpa using hg)
      (by simp [cursor_bumpCursor, hc])
    simp only [hrec]
    have hfun : ((fun k => [if (c + k) % 2 = 0 then h1 else h2]) ∘ Nat.succ)
        = fun k => [if (c + 1 + k) % 2 = 0 then h1 else h2] := by
      funext k
      have harith : c + Nat.succ k = c + 1 + k := by omega
      simp [Function.comp, harith]
    rw [List.range_succ_eq_map, List.map_cons, List.map_map, hfun]
    simp

/-- The concatenation of singleton traces is the list of picks. -/
theorem flatten_map_singleton (f : α → β) :
    ∀ l : List α, (l.map (fun a => [f a])).flatten = l.map f
  | [] => rfl
  | a :: l => by simp [flatten_map_singleton f l]

theorem countP_mod_two_zero_range (n : Nat) :
    (List.range n).countP (fun k => k % 2 == 0) = (n + 1) / 2 := by
  induction n with
  | zero => rfl
  | succ n ih =>
    rw [List.range_succ, List.countP_append, ih]
    rcases Nat.mod_two_eq_zero_or_one n with hpar | hpar <;>
      simp [List.countP_cons, hpar] <;> omega

theorem countP_mod_two_one_range (n : Nat) :
    (List.range n).countP (fun k => !(k % 2 == 0)) = n / 2 := by
  induction n with
  | zero => rfl
  | succ n ih =>
    rw [List.range_succ, List.countP_append, ih]
    rcases Nat.mod_two_eq_zero_or_one n with hpar | hpar <;>
      simp [List.countP_cons, hpar] <;> omega

/-- The success path of `SubscribeWithHandlerGroup` in one equation. -/
theorem subscribeGroup_ok (b : MemoryBus) (s g : String) (h : HandlerId)
    (hs : s ≠ "") (hg : g ≠ "") :
    b.SubscribeWithHandlerGroup s g (some h) =
      (none, { b with
        groups := mapSet b.groups s (mapSet (mapGet b.groups s []) g
          (mapGet (mapGet b.groups s []) g [] ++ [h])),
        groupIndex := mapSet b.groupIndex s (mapGet b.groupIndex s []) }) := by
  simp [MemoryBus.SubscribeWithHandlerGroup, hs, hg]

theorem roundRobinBus_eq (pat g : String) (h1 h2 : HandlerId)
    (hp : pat ≠ "") (hg : g ≠ "") :
    roundRobinBus pat g h1 h2 = ⟨[], [(pat, [(g, [h1, h2])])], [(pat, [])]⟩ := by
  unfold roundRobinBus
  rw [subscribeGroup_ok NewMemoryBus pat g h1 hp hg]
  simp only [NewMemoryBus, mapGet_nil, mapSet_nil, List.nil_append]
  rw [subscribeGroup_ok _ pat g h2 hp hg]
  simp [mapGet_cons, mapGet_nil, mapSet, List.any_cons, List.any_nil, beq_self_eq_true]

/-- C3: with two handlers registered in the same group under one pattern,
every matching publish invokes exactly the handler at `cursor % 2` and
advances the cursor, so `N` consecutive matching publishes alternate
starting with the first-registered handler, which receives `⌈N/2⌉` calls
against the second's `⌊N/2⌋`. -/
theorem publish_group_round_robin (o : HandlerId → Event → Option String)
    (pat g subj : String) (h1 h2 : HandlerId) (ev : Event) (N : Nat)
    (hp : pat ≠ "") (hg : g ≠ "") (hsub : subj ≠ "") (hm : matchSubject pat subj = true) :
    (publishSeq o subj ev N (roundRobinBus pat g h1 h2)).2 =
      (List.range N).map (fun k => [if k % 2 = 0 then h1 else h2]) ∧
    (h1 ≠ h2 →
      (publishSeq o subj ev N (roundRobinBus pat g h1 h2)).2.flatten.count h1 = (N + 1) / 2 ∧
      (publishSeq o subj ev N (roundRobinBus pat g h1 h2)).2.flatten.count h2 = N / 2) := by
  have hbus := roundRobinBus_eq pat g h1 h2 hp hg
  have hseq := publishSeq_roundRobin o pat g subj h1 h2 ev hm hsub N
    (roundRobinBus pat g h1 h2) 0 (by rw [hbus]) (by rw [hbus])
    (by rw [hbus]; simp [cursor, mapGet_cons, mapGet_nil])
  simp only [Nat.zero_add] at hseq
  refine ⟨hseq, ?_⟩
  intro hne
  rw [hseq, flatten_map_singleton]
  constructor
  · rw [List.count_eq_countP, List.countP_map]
    rw [show ((fun x => x == h1) ∘ fun k => if k % 2 = 0 then h1 else h2)
        = fun k => if k % 2 = 0 then (h1 == h1) else (h2 == h1) from by
      funext k; by_cases hk : k % 2 = 0 <;> simp [Function.comp, hk]]
    have : (fun k => if k % 2 = 0 then (h1 == h1) else (h2 == h1))
        = fun k => k % 2 == 0 := by
      funext k
      by_cases hk : k % 2 = 0 <;>
        simp [hk, beq_eq_false_iff_ne.2 hne, beq_eq_false_iff_ne.2 (Ne.symm hne)]
    rw [this, countP_mod_two_zero_range]
  · rw [List.count_eq_countP, List.countP_map]
    rw [show ((fun x => x == h2) ∘ fun k => if k % 2 = 0 then h1 else h2)
        = fun k => if k % 2 = 0 then (h1 == h2) else (h2 == h2) from by
      funext k; by_cases hk : k % 2 = 0 <;> simp [Function.comp, hk]]
    have : (fun k => if k % 2 = 0 then (h1 == h2) else (h2 == h2))
        = fun k => !(k % 2 == 0) := by
      funext k
      by_cases hk : k % 2 = 0 <;>
        simp [hk, beq_eq_false_iff_ne.2 hne, beq_eq_false_iff_ne.2 (Ne.symm hne)]
    rw [this, countP_mod_two_one_range]

theorem publish_group_round_robin_witness :
    (publishSeq (fun _ _ => none) "jobs" ⟨0⟩ 3 (roundRobinBus "jobs" "workers" 1 2)).2 =
      [[1], [2], [1]] := by
  have := (publish_group_round_robin (fun _ _ => none) "jobs" "workers" "jobs" 1 2 ⟨0⟩ 3
    (by decide) (by decide) (by decide) (by decide)).1
  rw [this]
  decide

/-- C8: two distinct groups under one matching pattern each receive the
published event exactly once, each group's pick is determined by its own
cursor and handler list alone, and the two cursors advance
independently. -/
theorem independent_groups (o : HandlerId → Event → Option String)
    (pat g1 g2 subj : String) (l1 l2 : List HandlerId) (gi : GroupIndex) (ev : Event)
    (hsub : subj ≠ "") (hm : matchSubject pat subj = true) (hgg : g2 ≠ g1)
    (hl1 : l1 ≠ []) (hl2 : l2 ≠ []) :
    (MemoryBus.Publish ⟨[], [(pat, [(g1, l1), (g2, l2)])], gi⟩ o subj (some ev)).2.1 =
      [l1.getD (cursor gi pat g1 % l1.length) 0,
       l2.getD (cursor gi pat g2 % l2.length) 0] ∧
    cursor (MemoryBus.Publish ⟨[], [(pat, [(g1, l1), (g2, l2)])], gi⟩ o subj
        (some ev)).2.2.groupIndex pat g1 = cursor gi pat g1 + 1 ∧
    cursor (MemoryBus.Publish ⟨[], [(pat, [(g1, l1), (g2, l2)])], gi⟩ o subj
        (some ev)).2.2.groupIndex pat g2 = cursor gi pat g2 + 1 := by
  have hz1 : ¬ (l1.length = 0) := fun hz => hl1 (List.length_eq_zero.1 hz)
  have hz2 : ¬ (l2.length = 0) := fun hz => hl2 (List.length_eq_zero.1 hz)
  rw [publish_ok _ o subj ev hsub]
  simp only [broadcastPass, List.foldl_nil, groupPass, List.foldl_cons, List.foldl_nil,
    groupStep, hm, if_true, groupInnerStep, hz1, hz2, if_false, List.nil_append,
    List.append_nil]
  have hc2 : cursor (bumpCursor gi pat g1) pat g2 = cursor gi pat g2 := by
    rw [cursor_bumpCursor]
    simp [hgg]
  refine ⟨by rw [hc2]; rfl, ?_, ?_⟩
  · rw [cursor_bumpCursor, if_neg (fun hand => hgg hand.2.symm),
      cursor_bumpCursor, if_pos ⟨rfl, rfl⟩]
  · rw [cursor_bumpCursor, if_pos ⟨rfl, rfl⟩, hc2]

/-- Keys of an association list are pairwise distinct — the invariant a
Go map guarantees by construction. -/
def KeysNodup (m : List (String × α)) : Prop := (m.map Prod.fst).Nodup

instance (m : List (String × α)) : Decidable (KeysNodup m) := by
  unfold KeysNodup
  infer_instance

/-- Statement vocabulary for C9: the number of (matching pattern,
non-empty group) pairs — how many group-mode invocations one publish
performs. -/
def nonemptyGroupCount (subj : String) :
    List (String × List (String × List HandlerId)) → Nat
  | [] => 0
  | pe :: gs =>
    (if matchSubject pe.1 subj then pe.2.countP (fun ge => !ge.2.isEmpty) else 0) +
      nonemptyGroupCount subj gs

theorem isEmpty_of_length_zero {l : List α} (hz : l.length = 0) : l.isEmpty = true := by
  rw [List.length_eq_zero.1 hz]
  rfl

theorem isEmpty_false_of_length_ne_zero {l : List α} (hz : ¬ l.length = 0) :
    l.isEmpty = false := by
  rcases hl : l with _ | ⟨a, t⟩
  · exact absurd (by rw [hl, List.length_nil]) hz
  · rfl

theorem groupInnerFold_length (o : HandlerId → Event → Option String) (ev : Event)
    (pat : String) (gm : List (String × List HandlerId)) :
    ∀ acc : List HandlerId × GroupIndex,
      (gm.foldl (groupInnerStep o ev pat) acc).1.length =
        acc.1.length + gm.countP (fun ge => !ge.2.isEmpty) := by
  induction gm with
  | nil => intro acc; simp
  | cons ge gm ih =>
    intro acc
    rw [List.foldl_cons, List.countP_cons]
    by_cases hz : ge.2.length = 0
    · simp only [groupInnerStep, if_pos hz, ih, isEmpty_of_length_zero hz]
      simp
    · simp only [groupInnerStep, if_neg hz]
      rw [ih]
      simp [isEmpty_false_of_length_ne_zero hz, List.length_append]
      omega

theorem groupInnerFold_cursor_other (o : HandlerId → Event → Option String) (ev : Event)
    (pat : String) (gm : List (String × List HandlerId)) :
    ∀ (acc : List HandlerId × GroupIndex) (p' g' : String),
      (p' ≠ pat ∨ g' ∉ gm.map Prod.fst) →
      cursor (gm.foldl (groupInnerStep o ev pat) acc).2 p' g' = cursor acc.2 p' g' := by
  induction gm with
  | nil => intro acc p' g' _; rfl
  | cons ge gm ih =>
    intro acc p' g' hside
    have hside' : p' ≠ pat ∨ g' ∉ gm.map Prod.fst := by
      rcases hside with hp | hg
      · exact Or.inl hp
      · exact Or.inr (fun hmm => hg (List.mem_cons_of_mem _ hmm))
    rw [List.foldl_cons]
    by_cases hz : ge.2.length = 0
    · simp only [groupInnerStep, if_pos hz]
      exact ih acc p' g' hside'
    · simp only [groupInnerStep, if_neg hz]
      rw [ih _ p' g' hside']
      simp only [cursor_bumpCursor]
      have hcond : ¬ (p' = pat ∧ g' = ge.1) := by
        rcases hside with hp | hg
        · exact fun hand => hp hand.1
        · exact fun hand => hg (by rw [hand.2]; exact List.mem_map.2 ⟨ge, List.mem_cons_self _ _, rfl⟩)
      rw [if_neg hcond]

theorem groupInnerFold_cursor_self (o : HandlerId → Event → Option String) (ev : Event)
    (pat : String) (gm : List (String × List HandlerId)) :
    ∀ (acc : List HandlerId × GroupIndex) (g : String) (hs : List HandlerId),
      KeysNodup gm → (g, hs) ∈ gm →
      cursor (gm.foldl (groupInnerStep o ev pat) acc).2 pat g =
        cursor acc.2 pat g + (if hs ≠ [] then 1 else 0) := by
  induction gm with
  | nil => intro acc g hs _ hmem; cases hmem
  | cons ge gm ih =>
    intro acc g hs hnd hmem
    have hnd0 : (ge.1 :: gm.map Prod.fst).Nodup := hnd
    have hnd' := List.nodup_cons.1 hnd0
    rw [List.foldl_cons]
    rcases List.mem_cons.1 hmem with hh | ht
    · -- the entry is the head; the tail never touches its cursor again
      have hg1 : ge.1 = g := by rw [← hh]
      have hg2 : ge.2 = hs := by rw [← hh]
      have hnotin : g ∉ gm.map Prod.fst := hg1 ▸ hnd'.1
      by_cases hz : ge.2.length = 0
      · have hemp : hs = [] := by
          rw [← hg2]
          exact List.length_eq_zero.1 hz
        rw [show groupInnerStep o ev pat acc ge = acc from by
          simp [groupInnerStep, hz]]
        rw [groupInnerFold_cursor_other o ev pat gm acc pat g (Or.inr hnotin), hemp]
        simp
      · have hne : hs ≠ [] := by
          rw [← hg2]
          intro hcon
          exact hz (by rw [hcon, List.length_nil])
        simp only [groupInnerStep, if_neg hz]
        rw [groupInnerFold_cursor_other o ev pat gm _ pat g (Or.inr hnotin)]
        rw [cursor_bumpCursor, if_pos ⟨rfl, hg1.symm⟩, hg1]
        simp [hne]
    · -- the entry is in the tail; the head's bump concerns another key
      have hgin : g ∈ gm.map Prod.fst := List.mem_map.2 ⟨(g, hs), ht, rfl⟩
      have hkey : g ≠ ge.1 := fun hcon => hnd'.1 (hcon ▸ hgin)
      by_cases hz : ge.2.length = 0
      · simp only [groupInnerStep, if_pos hz]
        exact ih acc g hs hnd'.2 ht
      · simp only [groupInnerStep, if_neg hz]
        rw [ih _ g hs hnd'.2 ht]
        rw [cursor_bumpCursor, if_neg (fun hand => hkey hand.2)]

theorem groupFold_length (o : HandlerId → Event → Option String) (subj : String)
    (ev : Event) (gs : List (String × List (String × List HandlerId))) :
    ∀ acc : List HandlerId × GroupIndex,
      (gs.foldl (groupStep o subj ev) acc).1.length =
        acc.1.length + nonemptyGroupCount subj gs := by
  induction gs with
  | nil => intro acc; simp [nonemptyGroupCount]
  | cons pe gs ih =>
    intro acc
    rw [List.foldl_cons]
    have hunf : nonemptyGroupCount subj (pe :: gs) =
        (if matchSubject pe.1 subj then pe.2.countP (fun ge => !ge.2.isEmpty) else 0) +
          nonemptyGroupCount subj gs := rfl
    by_cases hm : matchSubject pe.1 subj
    · simp only [groupStep, if_pos hm]
      rw [ih, groupInnerFold_length, hunf, if_pos hm]
      omega
    · simp only [groupStep, if_neg hm]
      rw [ih, hunf, if_neg hm]
      omega

theorem groupFold_cursor_other (o : HandlerId → Event → Option String) (subj : String)
    (ev : Event) (gs : List (String × List (String × List HandlerId))) :
    ∀ (acc : List HandlerId × GroupIndex) (p g : String),
      p ∉ gs.map Prod.fst →
      cursor (gs.foldl (groupStep o subj ev) acc).2 p g = cursor acc.2 p g := by
  induction gs with
  | nil => intro acc p g _; rfl
  | cons pe gs ih =>
    intro acc p g hnotin
    have hne : p ≠ pe.1 := fun hcon =>
      hnotin (hcon ▸ List.mem_map.2 ⟨pe, List.mem_cons_self _ _, rfl⟩)
    have hnotin' : p ∉ gs.map Prod.fst := fun hmm => hnotin (List.mem_cons_of_mem _ hmm)
    rw [List.foldl_cons]
    by_cases hm : matchSubject pe.1 subj
    · simp only [groupStep, if_pos hm]
      rw [ih _ p g hnotin']
      exact groupInnerFold_cursor_other o ev pe.1 pe.2 acc p g (Or.inl hne)
    · simp only [groupStep, if_neg hm]
      exact ih acc p g hnotin'

theorem groupFold_cursor_self (o : HandlerId → Event → Option String) (subj : String)
    (ev : Event) (gs : List (String × List (String × List HandlerId))) :
    ∀ (acc : List HandlerId × GroupIndex) (pat : String)
      (gm : List (String × List HandlerId)) (g : String) (hs : List HandlerId),
      KeysNodup gs → (∀ pe ∈ gs, KeysNodup pe.2) → (pat, gm) ∈ gs → (g, hs) ∈ gm →
      cursor (gs.foldl (groupStep o subj ev) acc).2 pat g =
        cursor acc.2 pat g +
          (if matchSubject pat subj = true ∧ hs ≠ [] then 1 else 0) := by
  induction gs with
  | nil => intro acc pat gm g hs _ _ hmem; cases hmem
  | cons pe gs ih =>
    intro acc pat gm g hs hnd hnd2 hmem1 hmem2
    have hnd0 : (pe.1 :: gs.map Prod.fst).Nodup := hnd
    have hnd' := List.nodup_cons.1 hnd0
    rw [List.foldl_cons]
    rcases List.mem_cons.1 hmem1 with hh | ht
    · have hp1 : pe.1 = pat := by rw [← hh]
      have hp2 : pe.2 = gm := by rw [← hh]
      have hnotin : pat ∉ gs.map Prod.fst := hp1 ▸ hnd'.1
      rw [groupFold_cursor_other o subj ev gs _ pat g hnotin]
      have hndgm : KeysNodup gm := hp2 ▸ hnd2 pe (List.mem_cons_self _ _)
      by_cases hm : matchSubject pe.1 subj
      · have hm' : matchSubject pat subj = true := hp1 ▸ hm
        simp only [groupStep, if_pos hm]
        rw [hp1, hp2, groupInnerFold_cursor_self o ev pat gm acc g hs hndgm hmem2]
        simp [hm']
      · have hm' : matchSubject pat subj = false := by
          rw [← hp1]
          exact Bool.eq_false_iff.2 hm
        simp only [groupStep, if_neg hm]
        simp [hm']
    · have hpin : pat ∈ gs.map Prod.fst := List.mem_map.2 ⟨(pat, gm), ht, rfl⟩
      have hkey : pat ≠ pe.1 := fun hcon => hnd'.1 (hcon ▸ hpin)
      have hnd2' : ∀ q ∈ gs, KeysNodup q.2 := fun q hq => hnd2 q (List.mem_cons_of_mem _ hq)
      by_cases hm : matchSubject pe.1 subj
      · simp only [groupStep, if_pos hm]
        rw [ih _ pat gm g hs hnd'.2 hnd2' ht hmem2,
          groupInnerFold_cursor_other o ev pe.1 pe.2 acc pat g (Or.inl hkey)]
      · simp only [groupStep, if_neg hm]
        exact ih acc pat gm g hs hnd'.2 hnd2' ht hmem2

/-- C9: on a valid publish, a group with no handlers is skipped — no
invocation, no cursor change — while every non-empty group under a
matching pattern has its cursor advanced exactly once, whatever its
size; the group-mode trace has exactly one entry per matching non-empty
group. -/
theorem empty_group_skipped_cursor_once (b : MemoryBus)
    (o : HandlerId → Event → Option String) (subj : String) (ev : Event)
    (hsub : subj ≠ "") (hnd : KeysNodup b.groups)
    (hnd2 : ∀ pe ∈ b.groups, KeysNodup pe.2) :
    (∀ pat gm g hs, (pat, gm) ∈ b.groups → (g, hs) ∈ gm →
      cursor (b.Publish o subj (some ev)).2.2.groupIndex pat g =
        cursor b.groupIndex pat g +
          (if matchSubject pat subj = true ∧ hs ≠ [] then 1 else 0)) ∧
    (b.Publish o subj (some ev)).2.1.length =
      (broadcastList subj b.handlers).length + nonemptyGroupCount subj b.groups := by
  rw [publish_ok b o subj ev hsub]
  constructor
  · intro pat gm g hs hmem1 hmem2
    exact groupFold_cursor_self o subj ev b.groups ([], b.groupIndex) pat gm g hs
      hnd hnd2 hmem1 hmem2
  · simp only [List.length_append, broadcastPass_eq]
    congr 1
    have hlen := groupFold_length o subj ev b.groups ([], b.groupIndex)
    simpa [groupPass] using hlen

theorem empty_group_skipped_cursor_once_witness :
    cursor (MemoryBus.Publish ⟨[], [("a", [("g1", []), ("g2", [5])])], []⟩
      (fun _ _ => none) "a" (some ⟨0⟩)).2.2.groupIndex "a" "g1" = 0 ∧
    cursor (MemoryBus.Publish ⟨[], [("a", [("g1", []), ("g2", [5])])], []⟩
      (fun _ _ => none) "a" (some ⟨0⟩)).2.2.groupIndex "a" "g2" = 1 ∧
    (MemoryBus.Publish ⟨[], [("a", [("g1", []), ("g2", [5])])], []⟩
      (fun _ _ => none) "a" (some ⟨0⟩)).2.1.length = 1 := by
  have h := empty_group_skipped_cursor_once ⟨[], [("a", [("g1", []), ("g2", [5])])], []⟩
    (fun _ _ => none) "a" ⟨0⟩ (by decide) (by decide) (by decide)
  refine ⟨?_, ?_, ?_⟩
  · have := h.1 "a" [("g1", []), ("g2", [5])] "g1" [] (by decide) (by decide)
    rw [this]
    decide
  · have := h.1 "a" [("g1", []), ("g2", [5])] "g2" [5] (by decide) (by decide)
    rw [this]
    decide
  · rw [h.2]
    decide

theorem independent_groups_witness :
    (MemoryBus.Publish ⟨[], [("p", [("a", [5]), ("b", [6, 7])])], []⟩ (fun _ _ => none)
      "p" (some ⟨0⟩)).2.1 = [5, 6] := by
  have := (independent_groups (fun _ _ => none) "p" "a" "b" "p" [5] [6, 7] [] ⟨0⟩
    (by decide) (by decide) (by decide) (by decide) (by decide)).1
  rw [this]
  decide

theorem subscribe_broadcast_order_witness :
    mapGet ((NewMemoryBus.Subscribe "t" (some 1)).2.Subscribe "t" (some 2)).2.handlers
        "t" [] = [1, 2] ∧
    [1, 2] <:+:
      (((NewMemoryBus.Subscribe "t" (some 1)).2.Subscribe "t" (some 2)).2.Publish
        (fun _ _ => none) "t" (some ⟨0⟩)).2.1 := by
  refine ⟨?_, ?_⟩
  · have := (subscribe_broadcast_order (NewMemoryBus.Subscribe "t" (some 1)).2 "t" 2
      (by decide)).2.1
    rw [this]
    decide
  · exact (subscribe_broadcast_order
      ((NewMemoryBus.Subscribe "t" (some 1)).2.Subscribe "t" (some 2)).2 "t" 3
      (by decide)).2.2.2.2.2 (fun _ _ => none) "t" ⟨0⟩ "t" [1, 2] (by decide) (by decide)
      (by decide)

/-! ## Matching-rule claims -/

/-- A pattern without `*` is compared by string equality alone. -/
theorem matchSubject_nostar (p s : String) (h : p.data.contains '*' = false) :
    matchSubject p s = true ↔ p = s := by
  unfold matchSubject
  rw [h]
  simp

/-- A pattern containing `*` together with an unclosed character class is
a malformed glob; `filepath.Match` reports `ErrBadPattern` and
`matchSubject` turns that into a non-match, whatever the subject. -/
theorem matchSubject_unclosed_class (s : String) : matchSubject "[*" s = false := by
  rcases s with ⟨l⟩
  rcases l with _ | ⟨c, cs⟩
  · rfl
  · rfl

/-- C10: without `*` the pattern is compared literally, so `?` and `[`
are inert; with `*` present the whole pattern is interpreted as a path
glob in which `?` and `[...]` are metacharacters; and a pattern that
combines `*` with malformed glob syntax (an unclosed `[`) matches no
subject at all, the match error being reported as a non-match. -/
theorem matchSubject_literal_vs_glob :
    (∀ p s : String, p.data.contains '*' = false → (matchSubject p s = true ↔ p = s)) ∧
    (matchSubject "a?" "ab" = false ∧ matchSubject "a?" "a?" = true ∧
      matchSubject "[ab]" "a" = false ∧ matchSubject "[ab]" "[ab]" = true) ∧
    (matchSubject "a?*" "abc" = true ∧ matchSubject "[ab]*c" "ac" = true ∧
      matchSubject "[ab]*c" "[ab]c" = false) ∧
    (∀ s : String, matchSubject "[*" s = false) :=
  ⟨matchSubject_nostar, ⟨by decide, by decide, by decide, by decide⟩,
    ⟨by decide, by decide, by decide⟩, matchSubject_unclosed_class⟩

theorem matchSubject_literal_vs_glob_witness :
    matchSubject "a.b" "a.b" = true ∧ matchSubject "[*" "x" = false :=
  ⟨(matchSubject_literal_vs_glob.1 "a.b" "a.b" (by decide)).mpr rfl,
   matchSubject_literal_vs_glob.2.2.2 "x"⟩

/-! ## The glob equivalence

`matchSubject`'s wildcard branch runs Go's chunked, greedily committing
`filepath.Match`.  On patterns without `?`, character classes or escapes
— which covers every subject pattern of this bus — it coincides with the
declarative rule `glob`: `*` matches any possibly-empty run of
non-separator characters, everything else is literal.  The lemmas below
establish that equivalence; the subtle step is that committing to the
first position where a chunk matches loses nothing
(`glob_star_commit`). -/

theorem globF_succ_star_nil (n : Nat) (p : Str) :
    globF (n + 1) ('*' :: p) [] = (globF n p [] || false) := rfl

theorem globF_succ_star_cons (n : Nat) (p : Str) (d : Char) (s' : Str) :
    globF (n + 1) ('*' :: p) (d :: s') =
      (globF n p (d :: s') || (decide (d ≠ separator) && globF n ('*' :: p) s')) := rfl

theorem globF_succ_lit_nil (n : Nat) (c : Char) (p : Str) (hc : ¬ c = '*') :
    globF (n + 1) (c :: p) [] = false := by
  simp only [globF, if_neg hc]

theorem globF_succ_lit_cons (n : Nat) (c : Char) (p : Str) (d : Char) (s' : Str)
    (hc : ¬ c = '*') :
    globF (n + 1) (c :: p) (d :: s') = (decide (c = d) && globF n p s') := by
  simp only [globF, if_neg hc]

/-- The fuel plays no role once it exceeds the combined length. -/
theorem globF_stable (n : Nat) : ∀ (m : Nat) (p s : Str), p.length + s.length < n →
    p.length + s.length < m → globF n p s = globF m p s := by
  induction n with
  | zero => intro m p s hn _; exact absurd hn (Nat.not_lt_zero _)
  | succ n ih =>
    intro m p s hn hm
    cases m with
    | zero => exact absurd hm (Nat.not_lt_zero _)
    | succ m =>
      cases p with
      | nil => rfl
      | cons c p =>
        by_cases hc : c = '*'
        · subst hc
          cases s with
          | nil =>
            rw [globF_succ_star_nil, globF_succ_star_nil]
            have hlen : p.length + List.length ([] : Str) < n := by
              simp only [List.length_cons] at hn; simp; omega
            have hlen' : p.length + List.length ([] : Str) < m := by
              simp only [List.length_cons] at hm; simp; omega
            rw [ih m p [] hlen hlen']
          | cons d s' =>
            rw [globF_succ_star_cons, globF_succ_star_cons]
            have hlen : p.length + (d :: s').length < n := by
              simp only [List.length_cons] at hn ⊢; omega
            have hlen' : p.length + (d :: s').length < m := by
              simp only [List.length_cons] at hm ⊢; omega
            have h2 : ('*' :: p).length + s'.length < n := by
              simp only [List.length_cons] at hn ⊢; omega
            have h2' : ('*' :: p).length + s'.length < m := by
              simp only [List.length_cons] at hm ⊢; omega
            rw [ih m p (d :: s') hlen hlen', ih m ('*' :: p) s' h2 h2']
        · cases s with
          | nil => rw [globF_succ_lit_nil n c p hc, globF_succ_lit_nil m c p hc]
          | cons d s' =>
            rw [globF_succ_lit_cons n c p d s' hc, globF_succ_lit_cons m c p d s' hc]
            have h2 : p.length + s'.length < n := by
              simp only [List.length_cons] at hn; omega
            have h2' : p.length + s'.length < m := by
              simp only [List.length_cons] at hm; omega
            rw [ih m p s' h2 h2']

theorem glob_nil_eq (s : Str) : glob [] s = s.isEmpty := rfl

theorem glob_star_nil (p : Str) : glob ('*' :: p) [] = glob p [] := by
  have e1 : globF (p.length + 1 + 0) p [] = glob p [] :=
    globF_stable _ _ _ _ (by simp only [List.length_nil]; omega)
      (by simp only [List.length_nil]; omega)
  show globF ((p.length + 1 + 0) + 1) ('*' :: p) [] = _
  rw [globF_succ_star_nil, Bool.or_false, e1]

theorem glob_star_cons (p : Str) (d : Char) (s' : Str) :
    glob ('*' :: p) (d :: s') =
      (glob p (d :: s') || (decide (d ≠ separator) && glob ('*' :: p) s')) := by
  have e1 : globF (p.length + 1 + (s'.length + 1)) p (d :: s') = glob p (d :: s') :=
    globF_stable _ _ _ _ (by simp only [List.length_cons]; omega)
      (by simp only [List.length_cons]; omega)
  have e2 : globF (p.length + 1 + (s'.length + 1)) ('*' :: p) s' = glob ('*' :: p) s' :=
    globF_stable _ _ _ _ (by simp only [List.length_cons]; omega)
      (by simp only [List.length_cons]; omega)
  show globF ((p.length + 1 + (s'.length + 1)) + 1) ('*' :: p) (d :: s') = _
  rw [globF_succ_star_cons, e1, e2]

theorem glob_lit_nil (c : Char) (p : Str) (hc : ¬ c = '*') : glob (c :: p) [] = false := by
  show globF ((p.length + 1 + 0) + 1) (c :: p) [] = _
  rw [globF_succ_lit_nil _ _ _ hc]

theorem glob_lit_cons (c : Char) (p : Str) (d : Char) (s' : Str) (hc : ¬ c = '*') :
    glob (c :: p) (d :: s') = (decide (c = d) && glob p s') := by
  have e1 : globF (p.length + 1 + (s'.length + 1)) p s' = glob p s' :=
    globF_stable _ _ _ _ (by omega) (by omega)
  show globF ((p.length + 1 + (s'.length + 1)) + 1) (c :: p) (d :: s') = _
  rw [globF_succ_lit_cons _ _ _ _ _ hc, e1]

/-- Adjacent stars collapse. -/
theorem glob_star_star (q : Str) : ∀ s, glob ('*' :: '*' :: q) s = glob ('*' :: q) s := by
  intro s
  induction s with
  | nil => rw [glob_star_nil]
  | cons d s' ih =>
    rw [glob_star_cons ('*' :: q) d s', ih, glob_star_cons q d s', Bool.or_assoc,
      Bool.or_self]

/-- A non-empty all-star run behaves like a single star. -/
theorem glob_stars_collapse (st : Str) (hne : st ≠ []) (hall : ∀ c ∈ st, c = '*') :
    ∀ (q s : Str), glob (st ++ q) s = glob ('*' :: q) s := by
  induction st with
  | nil => exact absurd rfl hne
  | cons c st' ih =>
    intro q s
    have hc : c = '*' := hall c (List.mem_cons_self _ _)
    subst hc
    rcases st' with _ | ⟨c2, st''⟩
    · rfl
    · have hc2 : c2 = '*' := hall c2 (List.mem_cons_of_mem _ (List.mem_cons_self _ _))
      subst hc2
      have hall' : ∀ x ∈ '*' :: st'', x = '*' := fun x hx =>
        hall x (List.mem_cons_of_mem _ hx)
      have hrec := ih (by simp) hall' q s
      calc glob (('*' :: '*' :: st'') ++ q) s
          = glob ('*' :: '*' :: (st'' ++ q)) s := rfl
        _ = glob ('*' :: (st'' ++ q)) s := glob_star_star (st'' ++ q) s
        _ = glob (('*' :: st'') ++ q) s := rfl
        _ = glob ('*' :: q) s := hrec

/-- Consuming a star-free chunk is literal comparison of a prefix. -/
theorem glob_lit_chunk (chunk : Str) (hlit : ∀ c ∈ chunk, ¬ c = '*') :
    ∀ (q s : Str), glob (chunk ++ q) s =
      if chunk <+: s then glob q (s.drop chunk.length) else false := by
  induction chunk with
  | nil => intro q s; simp
  | cons c chunk' ih =>
    intro q s
    have hc : ¬ c = '*' := hlit c (List.mem_cons_self _ _)
    have hlit' : ∀ x ∈ chunk', ¬ x = '*' := fun x hx => hlit x (List.mem_cons_of_mem _ hx)
    rw [List.cons_append]
    cases s with
    | nil =>
      rw [glob_lit_nil _ _ hc, if_neg]
      intro hcon
      have := hcon.length_le
      simp only [List.length_cons, List.length_nil] at this
      omega
    | cons d s' =>
      rw [glob_lit_cons _ _ _ _ hc, ih hlit' q s']
      by_cases hcd : c = d
      · subst hcd
        have h1 : decide (c = c) = true := by simp
        rw [h1, Bool.true_and]
        by_cases hp : chunk' <+: s'
        · rw [if_pos hp, if_pos (List.cons_prefix_cons.mpr ⟨rfl, hp⟩)]
          rfl
        · rw [if_neg hp, if_neg (fun hcon => hp (List.cons_prefix_cons.mp hcon).2)]
      · have h1 : decide (c = d) = false := by simp [hcd]
        rw [h1, Bool.false_and,
          if_neg (fun hcon => hcd (List.cons_prefix_cons.mp hcon).1)]

/-- Witness form of star matching: some split point with a separator-free
skipped prefix. -/
theorem glob_star_iff_exists (q : Str) :
    ∀ s, glob ('*' :: q) s = true ↔
      ∃ i, i ≤ s.length ∧ (∀ c ∈ s.take i, ¬ c = separator) ∧
        glob q (s.drop i) = true := by
  intro s
  induction s with
  | nil =>
    rw [glob_star_nil]
    constructor
    · intro h
      exact ⟨0, Nat.le_refl _, by simp, h⟩
    · rintro ⟨i, hi, -, hm⟩
      have : i = 0 := Nat.le_zero.mp (by simpa using hi)
      subst this
      simpa using hm
  | cons d s' ih =>
    rw [glob_star_cons]
    constructor
    · intro h
      rw [Bool.or_eq_true] at h
      rcases h with h0 | hrec
      · exact ⟨0, Nat.zero_le _, by simp, by simpa using h0⟩
      · rw [Bool.and_eq_true] at hrec
        rcases hrec with ⟨hd, h2⟩
        have hd' : ¬ d = separator := by simpa using hd
        rcases ih.mp h2 with ⟨i, hi, hfree, hm⟩
        refine ⟨i + 1, by simpa using Nat.succ_le_succ hi, ?_, by simpa using hm⟩
        intro c hc
        rw [List.take_succ_cons] at hc
        rcases List.mem_cons.mp hc with rfl | hc'
        · exact hd'
        · exact hfree c hc'
    · rintro ⟨i, hi, hfree, hm⟩
      rw [Bool.or_eq_true]
      cases i with
      | zero => exact Or.inl (by simpa using hm)
      | succ i =>
        right
        rw [Bool.and_eq_true]
        constructor
        · have : ¬ d = separator := by
            apply hfree
            rw [List.take_succ_cons]
            exact List.mem_cons_self _ _
          simpa using this
        · apply ih.mpr
          refine ⟨i, by simpa using hi, ?_, by simpa using hm⟩
          intro c hc
          apply hfree
          rw [List.take_succ_cons]
          exact List.mem_cons_of_mem _ hc

/-- A star absorbs any separator-free block on the left. -/
theorem glob_star_absorb (q : Str) :
    ∀ (y z : Str), (∀ c ∈ y, ¬ c = separator) → glob ('*' :: q) z = true →
      glob ('*' :: q) (y ++ z) = true := by
  intro y
  induction y with
  | nil => intro z _ h; simpa using h
  | cons c y' ih =>
    intro z hfree h
    rw [List.cons_append, glob_star_cons, Bool.or_eq_true]
    right
    rw [Bool.and_eq_true]
    exact ⟨by simp [hfree c (List.mem_cons_self _ _)],
      ih z (fun x hx => hfree x (List.mem_cons_of_mem _ hx)) h⟩

/-- Pointwise reading of a prefix. -/
theorem prefix_get_eq {l₁ l₂ : Str} (h : l₁ <+: l₂) (i : Nat) (hi : i < l₁.length)
    (hi2 : i < l₂.length) : l₂[i] = l₁[i] := by
  rcases h with ⟨t, rfl⟩
  exact List.getElem_append_left hi

/-- Reading a separator-free prefix by position. -/
theorem take_free_get {s : Str} {j : Nat} (hfree : ∀ c ∈ s.take j, ¬ c = separator)
    (t : Nat) (ht : t < j) (hts : t < s.length) : ¬ s[t] = separator := by
  intro hsep
  have hlt : t < (s.take j).length := by
    rw [List.length_take]
    omega
  have he : (s.take j)[t] = s[t] := List.getElem_take s
  exact hfree (s[t]) (by rw [← he]; exact List.getElem_mem hlt) hsep

/-- If a chunk occurs both at the front of `s` and right after a
separator-free skip of `j ≥ 1` characters, none of its characters is the
separator: a separator inside the chunk would, through the overlap of
the two occurrences, propagate down into the separator-free region. -/
theorem chunk_no_sep (chunk s : Str) (j : Nat) (hj1 : 1 ≤ j)
    (h0 : chunk <+: s) (hjp : chunk <+: s.drop j)
    (hfree : ∀ c ∈ s.take j, ¬ c = separator) :
    ∀ c ∈ chunk, ¬ c = separator := by
  have hlen0 : chunk.length ≤ s.length := h0.length_le
  have key : ∀ i, ∀ (hi : i < chunk.length), ¬ chunk[i] = separator := by
    intro i
    induction i using Nat.strong_induction_on with
    | _ i ih =>
      intro hi hsep
      have his : i < s.length := Nat.lt_of_lt_of_le hi hlen0
      have hgs : s[i] = chunk[i] := prefix_get_eq h0 i hi his
      by_cases hij : i < j
      · exact take_free_get hfree i hij his (by rw [hgs]; exact hsep)
      · have hj_le : j ≤ i := Nat.le_of_not_lt hij
        have h1 : i - j < chunk.length := by omega
        have h2 : i - j < i := by omega
        apply ih (i - j) h2 h1
        have hd1 : i - j < (s.drop j).length := by
          rw [List.length_drop]
          omega
        have e1 : (s.drop j)[i - j] = chunk[i - j] := prefix_get_eq hjp (i - j) h1 hd1
        have e2 : (s.drop j)[i - j] = s[j + (i - j)] := List.getElem_drop s
        have e3 : j + (i - j) = i := by omega
        rw [← e1, e2]
        simp only [e3]
        rw [hgs]
        exact hsep
  intro c hc
  rcases List.mem_iff_getElem.mp hc with ⟨i, hi, hci⟩
  rw [← hci]
  exact key i hi

/-- Greedy commitment is complete: when the chunk already matches at the
current position and some separator-free skip leads to a full match, the
skip can be traded for a match right here, because the remaining pattern
starts with another star. -/
theorem glob_star_commit (chunk r' s : Str) (hlit : ∀ c ∈ chunk, ¬ c = '*')
    (hpre : chunk <+: s) :
    glob ('*' :: (chunk ++ '*' :: r')) s = true ↔
      glob ('*' :: r') (s.drop chunk.length) = true := by
  constructor
  · intro h
    rcases (glob_star_iff_exists _ s).mp h with ⟨j, hjle, hfree, hm⟩
    rw [glob_lit_chunk chunk hlit ('*' :: r') (s.drop j)] at hm
    by_cases hpj : chunk <+: s.drop j
    · rw [if_pos hpj, List.drop_drop] at hm
      rcases Nat.eq_zero_or_pos j with hj0 | hjpos
      · subst hj0
        simpa using hm
      · have hchunkfree : ∀ c ∈ chunk, ¬ c = separator :=
          chunk_no_sep chunk s j hjpos hpre hpj hfree
        have hyfree : ∀ c ∈ (s.drop chunk.length).take j, ¬ c = separator := by
          intro c hc
          rcases List.mem_iff_getElem.mp hc with ⟨u, hu, hcu⟩
          have hu1 : u < j := by
            rw [List.length_take] at hu
            omega
          have hu2 : u < (s.drop chunk.length).length := by
            rw [List.length_take] at hu
            omega
          have hku : chunk.length + u < s.length := by
            rw [List.length_drop] at hu2
            omega
          have e0 : ((s.drop chunk.length).take j)[u] = (s.drop chunk.length)[u] :=
            List.getElem_take _
          have e1 : (s.drop chunk.length)[u] = s[chunk.length + u] := List.getElem_drop s
          rw [← hcu, e0, e1]
          by_cases hcase : chunk.length + u < j
          · exact take_free_get hfree _ hcase hku
          · have hm1 : (chunk.length + u) - j < chunk.length := by omega
            have hd1 : (chunk.length + u) - j < (s.drop j).length := by
              rw [List.length_drop]
              omega
            have e2 : (s.drop j)[(chunk.length + u) - j] = chunk[(chunk.length + u) - j] :=
              prefix_get_eq hpj _ hm1 hd1
            have e3 : (s.drop j)[(chunk.length + u) - j] = s[j + ((chunk.length + u) - j)] :=
              List.getElem_drop s
            have e4 : j + ((chunk.length + u) - j) = chunk.length + u := by omega
            intro hsep
            apply hchunkfree (chunk[(chunk.length + u) - j]) (List.getElem_mem hm1)
            rw [← e2, e3]
            simp only [e4]
            exact hsep
        have hsplit : s.drop chunk.length =
            (s.drop chunk.length).take j ++ s.drop (j + chunk.length) := by
          conv_lhs => rw [← List.take_append_drop j (s.drop chunk.length)]
          congr 1
          rw [List.drop_drop]
          congr 1
          omega
        rw [hsplit]
        exact glob_star_absorb r' _ _ hyfree hm
    · rw [if_neg hpj] at hm
      exact absurd hm (by simp)
  · intro h
    apply (glob_star_iff_exists _ s).mpr
    refine ⟨0, Nat.zero_le _, by simp, ?_⟩
    rw [List.drop_zero, glob_lit_chunk chunk hlit ('*' :: r') s, if_pos hpre]
    exact h

theorem glob_single_star (s : Str) : glob ['*'] s = !(s.contains separator) := by
  induction s with
  | nil => decide
  | cons d s' ih =>
    rw [glob_star_cons, ih, glob_nil_eq]
    by_cases hd : d = separator
    · simp [List.contains_cons, hd]
    · simp only [List.contains_cons, List.isEmpty_cons, Bool.false_or]
      have h1 : decide (d ≠ separator) = true := by simp [hd]
      have h2 : (separator == d) = false := by
        simp [beq_eq_false_iff_ne]
        exact fun hcon => hd hcon.symm
      rw [h1, h2]
      simp

/-! ## Go-side structure of the matcher on plain patterns -/

theorem stripStars_snd (p : Str) :
    (stripStars p).2 = p.dropWhile (fun c => decide (c = '*')) := by
  induction p with
  | nil => rfl
  | cons c rest ih =>
    by_cases hc : c = '*'
    · simp [stripStars, List.dropWhile_cons, hc, ih]
    · simp [stripStars, List.dropWhile_cons, hc]

theorem scanBody_false_star (rest : Str) : scanBody false ('*' :: rest) = ([], '*' :: rest) := by
  rw [scanBody.eq_def]
  simp +decide

theorem scanBody_false_other (c : Char) (rest : Str) (hc2 : ¬ c = '\\') (hc1 : ¬ c = '[')
    (hstar : ¬ c = '*') :
    scanBody false (c :: rest) = (c :: (scanBody false rest).1, (scanBody false rest).2) := by
  by_cases hrb : c = ']'
  · subst hrb
    rw [scanBody.eq_def]
    simp +decide
  · rw [scanBody.eq_def]
    simp [hc2, hc1, hrb, hstar]

theorem scanBody_simple (p : Str) (h1 : '[' ∉ p) (h2 : '\\' ∉ p) :
    scanBody false p = (p.takeWhile (fun c => !decide (c = '*')),
      p.dropWhile (fun c => !decide (c = '*'))) := by
  induction p with
  | nil => rfl
  | cons c rest ih =>
    have hc1 : ¬ c = '[' := fun hcon => h1 (by rw [← hcon]; exact List.mem_cons_self _ _)
    have hc2 : ¬ c = '\\' := fun hcon => h2 (by rw [← hcon]; exact List.mem_cons_self _ _)
    have h1' : '[' ∉ rest := fun hcon => h1 (List.mem_cons_of_mem _ hcon)
    have h2' : '\\' ∉ rest := fun hcon => h2 (List.mem_cons_of_mem _ hcon)
    by_cases hstar : c = '*'
    · subst hstar
      rw [scanBody_false_star]
      simp [List.takeWhile_cons, List.dropWhile_cons]
    · rw [scanBody_false_other c rest hc2 hc1 hstar, ih h1' h2']
      simp [List.takeWhile_cons, List.dropWhile_cons, hstar]

/-- On a star-free chunk of ordinary characters `matchChunk` is literal
prefix comparison, and in particular never fails with a pattern error. -/
theorem matchChunkF_lit (chunk : Str)
    (hq : '?' ∉ chunk) (hb : '[' ∉ chunk) (he : '\\' ∉ chunk) :
    ∀ (fuel : Nat) (s : Str) (failed : Bool), chunk.length ≤ fuel →
      matchChunkF fuel chunk s failed =
        .ok (if failed = false ∧ chunk <+: s then some (s.drop chunk.length) else none) := by
  induction chunk with
  | nil =>
    intro fuel s failed _
    cases failed
    · simp [matchChunkF]
    · simp [matchChunkF]
  | cons c chunk ih =>
    intro fuel s failed hfuel
    cases fuel with
    | zero => simp at hfuel
    | succ fuel =>
      have hc1 : ¬ c = '[' := fun hcon => hb (by rw [← hcon]; exact List.mem_cons_self _ _)
      have hc2 : ¬ c = '?' := fun hcon => hq (by rw [← hcon]; exact List.mem_cons_self _ _)
      have hc3 : ¬ c = '\\' := fun hcon => he (by rw [← hcon]; exact List.mem_cons_self _ _)
      have hq' : '?' ∉ chunk := fun hcon => hq (List.mem_cons_of_mem _ hcon)
      have hb' : '[' ∉ chunk := fun hcon => hb (List.mem_cons_of_mem _ hcon)
      have he' : '\\' ∉ chunk := fun hcon => he (List.mem_cons_of_mem _ hcon)
      have hfuel' : chunk.length ≤ fuel := by
        simp only [List.length_cons] at hfuel
        omega
      have hstep : matchChunkF (fuel + 1) (c :: chunk) s failed =
          (if (failed || s.isEmpty) then matchChunkF fuel chunk s true
           else match s with
             | [] => matchChunkF fuel chunk [] true
             | s0 :: srest => matchChunkF fuel chunk srest (decide (c ≠ s0))) := by
        simp only [matchChunkF, if_neg hc1, if_neg hc2, if_neg hc3]
      rw [hstep]
      cases s with
      | nil =>
        rw [show ([] : Str).isEmpty = true from rfl, Bool.or_true, if_pos rfl,
          ih hq' hb' he' fuel [] true hfuel']
        have : ¬ (c :: chunk <+: []) := fun hcon => by
          have := hcon.length_le
          simp only [List.length_cons, List.length_nil] at this
          omega
        simp [this]
      | cons s0 srest =>
        rw [List.isEmpty_cons, Bool.or_false]
        cases failed with
        | true =>
          rw [if_pos rfl, ih hq' hb' he' fuel (s0 :: srest) true hfuel']
          simp
        | false =>
          rw [if_neg (by simp)]
          show matchChunkF fuel chunk srest (decide (c ≠ s0)) = _
          rw [ih hq' hb' he' fuel srest (decide (c ≠ s0)) hfuel']
          by_cases hcs : c = s0
          · have hd : decide (c ≠ s0) = false := by simp [hcs]
            rw [hd]
            by_cases hp : chunk <+: srest
            · rw [if_pos ⟨rfl, hp⟩, if_pos ⟨rfl, List.cons_prefix_cons.mpr ⟨hcs, hp⟩⟩]
              rfl
            · rw [if_neg (fun hand => hp hand.2),
                if_neg (fun hand => hp (List.cons_prefix_cons.mp hand.2).2)]
          · have hd : decide (c ≠ s0) = true := by simp [hcs]
            rw [hd]
            rw [if_neg (by simp), if_neg
              (fun hand => hcs (List.cons_prefix_cons.mp hand.2).1)]

theorem matchChunk_lit (chunk s : Str) (hq : '?' ∉ chunk) (hb : '[' ∉ chunk)
    (he : '\\' ∉ chunk) :
    matchChunk chunk s =
      .ok (if chunk <+: s then some (s.drop chunk.length) else none) := by
  unfold matchChunk
  rw [matchChunkF_lit chunk hq hb he _ s false (by omega)]
  simp

theorem bool_eq_of_iff {a b : Bool} (h : a = true ↔ b = true) : a = b := by
  cases a <;> cases b <;> simp_all

theorem dropWhile_head_false (p : Char → Bool) :
    ∀ (l : List Char) (c : Char) (rest : Str), l.dropWhile p = c :: rest → p c = false := by
  intro l
  induction l with
  | nil => intro c rest h; simp at h
  | cons a l ih =>
    intro c rest h
    rw [List.dropWhile_cons] at h
    by_cases ha : p a
    · rw [if_pos ha] at h
      exact ih c rest h
    · rw [if_neg ha] at h
      injection h with h1 _
      rw [← h1]
      exact Bool.eq_false_iff.mpr ha


theorem mem_dropWhile_mem {α : Type} {p : α → Bool} :
    ∀ {l : List α} {a : α}, a ∈ l.dropWhile p → a ∈ l := by
  intro l
  induction l with
  | nil => intro a h; simp at h
  | cons x l ih =>
    intro a h
    rw [List.dropWhile_cons] at h
    by_cases hx : p x = true
    · rw [if_pos hx] at h
      exact List.mem_cons_of_mem _ (ih h)
    · rw [if_neg hx] at h
      exact h

theorem mem_takeWhile_mem {α : Type} {p : α → Bool} :
    ∀ {l : List α} {a : α}, a ∈ l.takeWhile p → a ∈ l := by
  intro l
  induction l with
  | nil => intro a h; simp at h
  | cons x l ih =>
    intro a h
    rw [List.takeWhile_cons] at h
    by_cases hx : p x = true
    · rw [if_pos hx] at h
      rcases List.mem_cons.mp h with h1 | h2
      · rw [h1]
        exact List.mem_cons_self _ _
      · exact List.mem_cons_of_mem _ (ih h2)
    · rw [if_neg hx] at h
      exact absurd h (List.not_mem_nil a)

theorem takeWhile_pred {α : Type} {p : α → Bool} :
    ∀ {l : List α} {a : α}, a ∈ l.takeWhile p → p a = true := by
  intro l
  induction l with
  | nil => intro a h; simp at h
  | cons x l ih =>
    intro a h
    rw [List.takeWhile_cons] at h
    by_cases hx : p x = true
    · rw [if_pos hx] at h
      rcases List.mem_cons.mp h with h1 | h2
      · rw [h1]
        exact hx
      · exact ih h2
    · rw [if_neg hx] at h
      exact absurd h (List.not_mem_nil a)

/-- The continuation of the matcher main loop on the result of the star
search: `continue Pattern` with the remaining name, `return false, nil`
when the search gives up, or the propagated pattern error. -/
def contMatch (n : Nat) (rest : Str) : Except Unit (Option Str) → Except Unit Bool
  | .ok (some t) => matchF n rest t
  | .ok none => .ok false
  | .error _ => .error ()

theorem contMatch_some (n : Nat) (rest t : Str) :
    contMatch n rest (.ok (some t)) = matchF n rest t := rfl

theorem contMatch_none (n : Nat) (rest : Str) :
    contMatch n rest (.ok none) = .ok false := rfl

theorem starSearch_nil (chunk : Str) (b : Bool) : starSearch chunk b [] = .ok none := rfl

theorem starSearch_sep (chunk : Str) (b : Bool) (d : Char) (s : Str)
    (hd : d = separator) : starSearch chunk b (d :: s) = .ok none := by
  simp only [starSearch]
  rw [if_pos hd]

theorem starSearch_step_some (chunk : Str) (b : Bool) (d : Char) (s t : Str)
    (hd : ¬ d = separator) (hmc : matchChunk chunk s = .ok (some t)) :
    starSearch chunk b (d :: s) =
      if b = true ∧ t ≠ [] then starSearch chunk b s else .ok (some t) := by
  simp only [starSearch]
  rw [if_neg hd]
  simp only [hmc]

theorem starSearch_step_none (chunk : Str) (b : Bool) (d : Char) (s : Str)
    (hd : ¬ d = separator) (hmc : matchChunk chunk s = .ok none) :
    starSearch chunk b (d :: s) = starSearch chunk b s := by
  simp only [starSearch]
  rw [if_neg hd]
  simp only [hmc]

/-- The star-search loop composed with the `continue Pattern` continuation
computes the declarative star clause on the tail of the name. -/
theorem starSearch_glob (chunk rest : Str) (n : Nat)
    (hq : '?' ∉ chunk) (hb : '[' ∉ chunk) (he : '\\' ∉ chunk)
    (hlit : ∀ c ∈ chunk, ¬ c = '*') (hch : ¬ chunk = [])
    (hrest : rest = [] ∨ ∃ r2, rest = '*' :: r2)
    (hnext : ∀ t : Str, matchF n rest t = .ok (glob rest t)) :
    ∀ (s : Str) (d : Char),
      contMatch n rest (starSearch chunk (decide (rest = [])) (d :: s)) =
        .ok (decide (d ≠ separator) && glob ('*' :: (chunk ++ rest)) s) := by
  intro s
  induction s with
  | nil =>
    intro d
    have hglobnil : glob ('*' :: (chunk ++ rest)) [] = false := by
      rw [glob_star_nil, glob_lit_chunk chunk hlit rest [],
        if_neg (fun hcon => hch (List.prefix_nil.mp hcon))]
    by_cases hd : d = separator
    · rw [starSearch_sep chunk (decide (rest = [])) d [] hd, contMatch_none, hglobnil,
        Bool.and_false]
    · have hmc : matchChunk chunk [] = .ok none := by
        rw [matchChunk_lit chunk [] hq hb he,
          if_neg (fun hcon => hch (List.prefix_nil.mp hcon))]
      rw [starSearch_step_none chunk (decide (rest = [])) d [] hd hmc, starSearch_nil,
        contMatch_none, hglobnil, Bool.and_false]
  | cons e z ih =>
    intro d
    by_cases hd : d = separator
    · have hdd0 : decide (d ≠ separator) = false := by simp [hd]
      rw [starSearch_sep chunk (decide (rest = [])) d (e :: z) hd, contMatch_none, hdd0,
        Bool.false_and]
    · have hdd : decide (d ≠ separator) = true := by simp [hd]
      have hmc0 := matchChunk_lit chunk (e :: z) hq hb he
      by_cases hp : chunk <+: e :: z
      · rw [if_pos hp] at hmc0
        rw [starSearch_step_some chunk (decide (rest = [])) d (e :: z) _ hd hmc0]
        by_cases hcommit : decide (rest = []) = true ∧ (e :: z).drop chunk.length ≠ []
        · rw [if_pos hcommit]
          obtain ⟨hre, htne⟩ := hcommit
          have hre2 : rest = [] := by simpa using hre
          subst hre2
          have hqfalse : glob (chunk ++ []) (e :: z) = false := by
            rw [glob_lit_chunk chunk hlit [] (e :: z), if_pos hp, glob_nil_eq]
            exact isEmpty_false_of_length_ne_zero
              (fun hcon => htne (List.length_eq_zero.1 hcon))
          rw [ih e, hdd, Bool.true_and, glob_star_cons, hqfalse, Bool.false_or]
        · rw [if_neg hcommit, contMatch_some, hnext, hdd, Bool.true_and]
          rcases hrest with hre | ⟨r2, hre⟩
          · subst hre
            have ht : (e :: z).drop chunk.length = [] := by
              by_contra hcon
              exact hcommit ⟨by simp, hcon⟩
            have hseq : e :: z = chunk := by
              rcases hp with ⟨u, hu⟩
              have hu0 : u = [] := by
                have hdrop := congrArg (List.drop chunk.length) hu
                rwa [List.drop_left, ht] at hdrop
              rw [hu0, List.append_nil] at hu
              exact hu.symm
            rw [ht, hseq]
            have hstar : glob ('*' :: (chunk ++ [])) chunk = true := by
              apply (glob_star_iff_exists (chunk ++ []) chunk).mpr
              refine ⟨0, Nat.zero_le _, by simp, ?_⟩
              rw [List.drop_zero, glob_lit_chunk chunk hlit [] chunk,
                if_pos (List.prefix_refl chunk), List.drop_length, glob_nil_eq]
              rfl
            rw [hstar]
            rfl
          · subst hre
            rw [bool_eq_of_iff (glob_star_commit chunk r2 (e :: z) hlit hp)]
      · rw [if_neg hp] at hmc0
        rw [starSearch_step_none chunk (decide (rest = [])) d (e :: z) hd hmc0, ih e, hdd,
          Bool.true_and]
        have hqfalse : glob (chunk ++ rest) (e :: z) = false := by
          rw [glob_lit_chunk chunk hlit rest (e :: z), if_neg hp]
        rw [glob_star_cons, hqfalse, Bool.false_or]

theorem matchF_trailing_star (fuel : Nat) (p0 : Char) (prest name rest : Str)
    (hsc : scanChunk (p0 :: prest) = (true, [], rest)) :
    matchF (fuel + 1) (p0 :: prest) name = .ok (!name.contains separator) := by
  simp only [matchF]
  rw [hsc]
  simp

theorem matchF_step_commit (fuel : Nat) (p0 : Char) (prest name : Str) (star : Bool)
    (chunk rest t : Str)
    (hnc : ¬ (star = true ∧ chunk = []))
    (hsc : scanChunk (p0 :: prest) = (star, chunk, rest))
    (hmc : matchChunk chunk name = .ok (some t))
    (hcommit : t = [] ∨ rest ≠ []) :
    matchF (fuel + 1) (p0 :: prest) name = matchF fuel rest t := by
  simp only [matchF]
  rw [hsc]
  simp only [if_neg hnc, hmc, if_pos hcommit]

theorem matchF_step_fail (fuel : Nat) (p0 : Char) (prest name chunk rest : Str)
    (hsc : scanChunk (p0 :: prest) = (false, chunk, rest))
    (hmc : matchChunk chunk name = .ok none) :
    matchF (fuel + 1) (p0 :: prest) name = .ok false := by
  have hnc : ¬ (false = true ∧ chunk = []) := fun hcon => Bool.false_ne_true hcon.1
  simp only [matchF]
  rw [hsc]
  simp only [if_neg hnc, hmc, if_neg Bool.false_ne_true]

theorem matchF_step_fail2 (fuel : Nat) (p0 : Char) (prest name chunk rest t : Str)
    (hsc : scanChunk (p0 :: prest) = (false, chunk, rest))
    (hmc : matchChunk chunk name = .ok (some t))
    (ht : ¬ (t = [] ∨ rest ≠ [])) :
    matchF (fuel + 1) (p0 :: prest) name = .ok false := by
  have hnc : ¬ (false = true ∧ chunk = []) := fun hcon => Bool.false_ne_true hcon.1
  simp only [matchF]
  rw [hsc]
  simp only [if_neg hnc, hmc, if_neg ht, if_neg Bool.false_ne_true]

theorem matchF_step_search_none (fuel : Nat) (p0 : Char) (prest name chunk rest : Str)
    (hch : ¬ chunk = [])
    (hsc : scanChunk (p0 :: prest) = (true, chunk, rest))
    (hmc : matchChunk chunk name = .ok none) :
    matchF (fuel + 1) (p0 :: prest) name =
      contMatch fuel rest (starSearch chunk (decide (rest = [])) name) := by
  have hnc : ¬ (true = true ∧ chunk = []) := fun hcon => hch hcon.2
  simp only [matchF]
  rw [hsc]
  simp only [hmc, true_and, if_neg hch, if_true]
  cases starSearch chunk (decide (rest = [])) name with
  | ok o =>
    cases o with
    | none => rfl
    | some t2 => rfl
  | error u => rfl

theorem matchF_step_search_some (fuel : Nat) (p0 : Char) (prest name chunk rest t : Str)
    (hch : ¬ chunk = [])
    (hsc : scanChunk (p0 :: prest) = (true, chunk, rest))
    (hmc : matchChunk chunk name = .ok (some t))
    (ht : ¬ (t = [] ∨ rest ≠ [])) :
    matchF (fuel + 1) (p0 :: prest) name =
      contMatch fuel rest (starSearch chunk (decide (rest = [])) name) := by
  have hnc : ¬ (true = true ∧ chunk = []) := fun hcon => hch hcon.2
  simp only [matchF]
  rw [hsc]
  simp only [hmc, if_neg ht, true_and, if_neg hch, if_true]
  cases starSearch chunk (decide (rest = [])) name with
  | ok o =>
    cases o with
    | none => rfl
    | some t2 => rfl
  | error u => rfl

/-- One step of the main loop on a pattern starting with an ordinary
character: the leading chunk is matched literally and the loop continues
on the rest of the pattern. -/
theorem matchF_glob_lit_case (n : Nat) (c : Char) (p2 name chunk rest : Str)
    (ih : ∀ q : Str, q.length < n → SimplePat q → ∀ t, matchF n q t = .ok (glob q t))
    (hsc : scanChunk (c :: p2) = (false, chunk, rest))
    (hlit : ∀ x ∈ chunk, ¬ x = '*')
    (hqC : '?' ∉ chunk) (hbC : '[' ∉ chunk) (heC : '\\' ∉ chunk)
    (hsimpR : SimplePat rest) (hlenR : rest.length < n)
    (hsplit : chunk ++ rest = c :: p2) :
    matchF (n + 1) (c :: p2) name = .ok (glob (c :: p2) name) := by
  have hgl : glob (chunk ++ rest) name = glob (c :: p2) name := by rw [hsplit]
  have hmc0 := matchChunk_lit chunk name hqC hbC heC
  by_cases hps : chunk <+: name
  · rw [if_pos hps] at hmc0
    by_cases hcommit : name.drop chunk.length = [] ∨ rest ≠ []
    · rw [matchF_step_commit n c p2 name false chunk rest _
        (fun hcon => Bool.false_ne_true hcon.1) hsc hmc0 hcommit,
        ih rest hlenR hsimpR, ← hgl, glob_lit_chunk chunk hlit rest name, if_pos hps]
    · have hcc := hcommit
      push_neg at hcc
      rw [matchF_step_fail2 n c p2 name chunk rest _ hsc hmc0 hcommit]
      have hglob : glob (c :: p2) name = false := by
        rw [← hgl, glob_lit_chunk chunk hlit rest name, if_pos hps, hcc.2, glob_nil_eq]
        exact isEmpty_false_of_length_ne_zero
          (fun hcon => hcc.1 (List.length_eq_zero.1 hcon))
      rw [hglob]
  · rw [if_neg hps] at hmc0
    rw [matchF_step_fail n c p2 name chunk rest hsc hmc0]
    have hglob : glob (c :: p2) name = false := by
      rw [← hgl, glob_lit_chunk chunk hlit rest name, if_neg hps]
    rw [hglob]

/-- One step of the main loop on a pattern starting with a star run: the
branch of `Match` with `star` set agrees with the declarative star
semantics. -/
theorem matchF_glob_star_case (n : Nat) (p2 name chunk rest : Str)
    (ih : ∀ q : Str, q.length < n → SimplePat q → ∀ t, matchF n q t = .ok (glob q t))
    (hsc : scanChunk ('*' :: p2) = (true, chunk, rest))
    (hlit : ∀ x ∈ chunk, ¬ x = '*')
    (hqC : '?' ∉ chunk) (hbC : '[' ∉ chunk) (heC : '\\' ∉ chunk)
    (hsimpR : SimplePat rest) (hlenR : rest.length < n)
    (hrsh : rest = [] ∨ ∃ r2, rest = '*' :: r2)
    (hce : chunk = [] → rest = [])
    (hglobB : ∀ s2 : Str, glob ('*' :: p2) s2 = glob ('*' :: (chunk ++ rest)) s2) :
    matchF (n + 1) ('*' :: p2) name = .ok (glob ('*' :: p2) name) := by
  by_cases hch : chunk = []
  · have hre := hce hch
    subst hch
    subst hre
    rw [matchF_trailing_star n '*' p2 name [] hsc, hglobB name,
      show (([] : Str) ++ ([] : Str)) = ([] : Str) from rfl, glob_single_star]
  · have hnext : ∀ t : Str, matchF n rest t = .ok (glob rest t) :=
      fun t => ih rest hlenR hsimpR t
    have hmc0 := matchChunk_lit chunk name hqC hbC heC
    by_cases hps : chunk <+: name
    · rw [if_pos hps] at hmc0
      by_cases hcommit : name.drop chunk.length = [] ∨ rest ≠ []
      · rw [matchF_step_commit n '*' p2 name true chunk rest _
          (fun hcon => hch hcon.2) hsc hmc0 hcommit, hnext, hglobB name]
        rcases hrsh with hre | ⟨r2, hre⟩
        · subst hre
          rcases hcommit with ht0 | hcon
          · have hseq : name = chunk := by
              rcases hps with ⟨u, hu⟩
              have hu0 : u = [] := by
                have hdrop := congrArg (List.drop chunk.length) hu
                rwa [List.drop_left, ht0] at hdrop
              rw [hu0, List.append_nil] at hu
              exact hu.symm
            rw [hseq, List.drop_length]
            have hstar : glob ('*' :: (chunk ++ [])) chunk = true := by
              apply (glob_star_iff_exists (chunk ++ []) chunk).mpr
              refine ⟨0, Nat.zero_le _, by simp, ?_⟩
              rw [List.drop_zero, glob_lit_chunk chunk hlit [] chunk,
                if_pos (List.prefix_refl chunk), List.drop_length, glob_nil_eq]
              rfl
            rw [hstar]
            rfl
          · exact absurd rfl hcon
        · subst hre
          rw [bool_eq_of_iff (glob_star_commit chunk r2 name hlit hps)]
      · have hcc := hcommit
        push_neg at hcc
        rw [matchF_step_search_some n '*' p2 name chunk rest _ hch hsc hmc0 hcommit]
        cases name with
        | nil => exact absurd (List.prefix_nil.mp hps) hch
        | cons d s2 =>
          rw [starSearch_glob chunk rest n hqC hbC heC hlit hch hrsh hnext s2 d,
            hglobB (d :: s2), glob_star_cons]
          have hqfalse : glob (chunk ++ rest) (d :: s2) = false := by
            rw [glob_lit_chunk chunk hlit rest (d :: s2), if_pos hps, hcc.2, glob_nil_eq]
            exact isEmpty_false_of_length_ne_zero
              (fun hcon => hcc.1 (List.length_eq_zero.1 hcon))
          rw [hqfalse, Bool.false_or]
    · rw [if_neg hps] at hmc0
      rw [matchF_step_search_none n '*' p2 name chunk rest hch hsc hmc0]
      cases name with
      | nil =>
        rw [starSearch_nil, contMatch_none, hglobB [], glob_star_nil,
          glob_lit_chunk chunk hlit rest [],
          if_neg (fun hcon => hch (List.prefix_nil.mp hcon))]
      | cons d s2 =>
        rw [starSearch_glob chunk rest n hqC hbC heC hlit hch hrsh hnext s2 d,
          hglobB (d :: s2), glob_star_cons]
        have hqfalse : glob (chunk ++ rest) (d :: s2) = false := by
          rw [glob_lit_chunk chunk hlit rest (d :: s2), if_neg hps]
        rw [hqfalse, Bool.false_or]

/-- On patterns whose only special character is `*` the Go matcher never
fails and agrees with the declarative glob semantics. -/
theorem matchF_glob : ∀ (n : Nat) (p : Str), p.length < n → SimplePat p →
    ∀ s : Str, matchF n p s = .ok (glob p s) := by
  intro n
  induction n with
  | zero =>
    intro p hlen
    exact absurd hlen (Nat.not_lt_zero _)
  | succ n ih =>
    intro p hlen hsimp s
    obtain ⟨hq, hb, he⟩ := hsimp
    cases p with
    | nil => rfl
    | cons c p2 =>
      simp only [List.length_cons] at hlen
      by_cases hc : c = '*'
      · subst hc
        have hq1 : '?' ∉ p2.dropWhile (fun y => decide (y = '*')) :=
          fun hcon => hq (List.mem_cons_of_mem _ (mem_dropWhile_mem hcon))
        have hb1 : '[' ∉ p2.dropWhile (fun y => decide (y = '*')) :=
          fun hcon => hb (List.mem_cons_of_mem _ (mem_dropWhile_mem hcon))
        have he1 : '\\' ∉ p2.dropWhile (fun y => decide (y = '*')) :=
          fun hcon => he (List.mem_cons_of_mem _ (mem_dropWhile_mem hcon))
        have hdwB : ('*' :: p2).dropWhile (fun y => decide (y = '*')) =
            p2.dropWhile (fun y => decide (y = '*')) := by
          rw [List.dropWhile_cons, if_pos (by simp)]
        have hsc : scanChunk ('*' :: p2) =
            (true,
              (p2.dropWhile (fun y => decide (y = '*'))).takeWhile
                (fun y => !decide (y = '*')),
              (p2.dropWhile (fun y => decide (y = '*'))).dropWhile
                (fun y => !decide (y = '*'))) := by
          have h1 : (stripStars ('*' :: p2)).1 = true := by
            simp [stripStars]
          have h2 : scanChunk ('*' :: p2) = ((stripStars ('*' :: p2)).1,
              (scanBody false (stripStars ('*' :: p2)).2).1,
              (scanBody false (stripStars ('*' :: p2)).2).2) := rfl
          rw [h2, h1, stripStars_snd, hdwB, scanBody_simple _ hb1 he1]
        have hsplitB : (p2.dropWhile (fun y => decide (y = '*'))).takeWhile
              (fun y => !decide (y = '*')) ++
            (p2.dropWhile (fun y => decide (y = '*'))).dropWhile
              (fun y => !decide (y = '*')) =
            p2.dropWhile (fun y => decide (y = '*')) := by
          rw [List.takeWhile_append_dropWhile]
        have hlenP1 : (p2.dropWhile (fun y => decide (y = '*'))).length ≤ p2.length := by
          have h0 : p2.takeWhile (fun y => decide (y = '*')) ++
              p2.dropWhile (fun y => decide (y = '*')) = p2 := by
            rw [List.takeWhile_append_dropWhile]
          have h1 := congrArg List.length h0
          rw [List.length_append] at h1
          omega
        have h1len := congrArg List.length hsplitB
        rw [List.length_append] at h1len
        have hlitB : ∀ x ∈ (p2.dropWhile (fun y => decide (y = '*'))).takeWhile
            (fun y => !decide (y = '*')), ¬ x = '*' :=
          fun x hx => by simpa using takeWhile_pred hx
        have hqC : '?' ∉ (p2.dropWhile (fun y => decide (y = '*'))).takeWhile
            (fun y => !decide (y = '*')) :=
          fun hcon => hq1 (mem_takeWhile_mem hcon)
        have hbC : '[' ∉ (p2.dropWhile (fun y => decide (y = '*'))).takeWhile
            (fun y => !decide (y = '*')) :=
          fun hcon => hb1 (mem_takeWhile_mem hcon)
        have heC : '\\' ∉ (p2.dropWhile (fun y => decide (y = '*'))).takeWhile
            (fun y => !decide (y = '*')) :=
          fun hcon => he1 (mem_takeWhile_mem hcon)
        have hsimpR : SimplePat ((p2.dropWhile (fun y => decide (y = '*'))).dropWhile
            (fun y => !decide (y = '*'))) :=
          ⟨fun hcon => hq1 (mem_dropWhile_mem hcon),
            fun hcon => hb1 (mem_dropWhile_mem hcon),
            fun hcon => he1 (mem_dropWhile_mem hcon)⟩
        have hlenR : ((p2.dropWhile (fun y => decide (y = '*'))).dropWhile
            (fun y => !decide (y = '*'))).length < n := by
          omega
        have hrsh : (p2.dropWhile (fun y => decide (y = '*'))).dropWhile
              (fun y => !decide (y = '*')) = [] ∨
            ∃ r2, (p2.dropWhile (fun y => decide (y = '*'))).dropWhile
              (fun y => !decide (y = '*')) = '*' :: r2 := by
          cases hr : (p2.dropWhile (fun y => decide (y = '*'))).dropWhile
              (fun y => !decide (y = '*')) with
          | nil => exact Or.inl rfl
          | cons a t =>
            refine Or.inr ⟨t, ?_⟩
            have ha := dropWhile_head_false _ _ a t hr
            have ha2 : a = '*' := by simpa using ha
            rw [ha2]
        have hce : (p2.dropWhile (fun y => decide (y = '*'))).takeWhile
              (fun y => !decide (y = '*')) = [] →
            (p2.dropWhile (fun y => decide (y = '*'))).dropWhile
              (fun y => !decide (y = '*')) = [] := by
          intro h0
          cases hP1 : p2.dropWhile (fun y => decide (y = '*')) with
          | nil => simp [hP1]
          | cons a t =>
            exfalso
            have ha := dropWhile_head_false _ _ a t hP1
            rw [hP1, List.takeWhile_cons, if_pos (by simp [ha])] at h0
            simp at h0
        have hglobB : ∀ s2 : Str, glob ('*' :: p2) s2 = glob ('*' ::
            ((p2.dropWhile (fun y => decide (y = '*'))).takeWhile
                (fun y => !decide (y = '*')) ++
              (p2.dropWhile (fun y => decide (y = '*'))).dropWhile
                (fun y => !decide (y = '*')))) s2 := by
          intro s2
          have h1 : ('*' :: p2).takeWhile (fun y => decide (y = '*')) ++
              p2.dropWhile (fun y => decide (y = '*')) = '*' :: p2 := by
            rw [← hdwB, List.takeWhile_append_dropWhile]
          have hne : ('*' :: p2).takeWhile (fun y => decide (y = '*')) ≠ [] := by
            rw [List.takeWhile_cons, if_pos (by simp)]
            simp
          have hall : ∀ x ∈ ('*' :: p2).takeWhile (fun y => decide (y = '*')), x = '*' :=
            fun x hx => by simpa using takeWhile_pred hx
          calc glob ('*' :: p2) s2
              = glob (('*' :: p2).takeWhile (fun y => decide (y = '*')) ++
                  p2.dropWhile (fun y => decide (y = '*'))) s2 := by rw [h1]
            _ = glob ('*' :: p2.dropWhile (fun y => decide (y = '*'))) s2 :=
                glob_stars_collapse _ hne hall _ s2
            _ = _ := by rw [hsplitB]
        exact matchF_glob_star_case n p2 s _ _ ih hsc hlitB hqC hbC heC hsimpR hlenR
          hrsh hce hglobB
      · have hdw : (c :: p2).dropWhile (fun y => decide (y = '*')) = c :: p2 := by
          rw [List.dropWhile_cons, if_neg (by simp [hc])]
        have hsc : scanChunk (c :: p2) =
            (false, (c :: p2).takeWhile (fun y => !decide (y = '*')),
              (c :: p2).dropWhile (fun y => !decide (y = '*'))) := by
          have h1 : (stripStars (c :: p2)).1 = false := by
            simp [stripStars, hc]
          have h2 : scanChunk (c :: p2) = ((stripStars (c :: p2)).1,
              (scanBody false (stripStars (c :: p2)).2).1,
              (scanBody false (stripStars (c :: p2)).2).2) := rfl
          rw [h2, h1, stripStars_snd, hdw, scanBody_simple (c :: p2) hb he]
        have hsplitA : (c :: p2).takeWhile (fun y => !decide (y = '*')) ++
            (c :: p2).dropWhile (fun y => !decide (y = '*')) = c :: p2 := by
          rw [List.takeWhile_append_dropWhile]
        have hlitA : ∀ x ∈ (c :: p2).takeWhile (fun y => !decide (y = '*')), ¬ x = '*' :=
          fun x hx => by simpa using takeWhile_pred hx
        have hqC : '?' ∉ (c :: p2).takeWhile (fun y => !decide (y = '*')) :=
          fun hcon => hq (mem_takeWhile_mem hcon)
        have hbC : '[' ∉ (c :: p2).takeWhile (fun y => !decide (y = '*')) :=
          fun hcon => hb (mem_takeWhile_mem hcon)
        have heC : '\\' ∉ (c :: p2).takeWhile (fun y => !decide (y = '*')) :=
          fun hcon => he (mem_takeWhile_mem hcon)
        have hsimpR : SimplePat ((c :: p2).dropWhile (fun y => !decide (y = '*'))) :=
          ⟨fun hcon => hq (mem_dropWhile_mem hcon),
            fun hcon => hb (mem_dropWhile_mem hcon),
            fun hcon => he (mem_dropWhile_mem hcon)⟩
        have hlenR : ((c :: p2).dropWhile (fun y => !decide (y = '*'))).length < n := by
          have h0 := congrArg List.length hsplitA
          rw [List.length_append, List.length_cons] at h0
          have h1 : (c :: p2).takeWhile (fun y => !decide (y = '*')) =
              c :: p2.takeWhile (fun y => !decide (y = '*')) := by
            rw [List.takeWhile_cons, if_pos (by simp [hc])]
          have h2 : 1 ≤ ((c :: p2).takeWhile (fun y => !decide (y = '*'))).length := by
            rw [h1, List.length_cons]
            omega
          omega
        exact matchF_glob_lit_case n c p2 s _ _ ih hsc hlitA hqC hbC heC hsimpR hlenR
          hsplitA

/-- `filepath.Match` agrees with the declarative glob semantics on
patterns whose only special character is `*`. -/
theorem Match_glob (p s : Str) (hp : SimplePat p) : Match p s = .ok (glob p s) :=
  matchF_glob (p.length + 1) p (Nat.lt_succ_self _) hp s

/-- `matchSubject` in terms of the declarative semantics: literal equality
without a `*`, the glob relation with one. -/
theorem matchSubject_glob (p s : String) (hp : SimplePat p.data) :
    matchSubject p s =
      if p.data.contains '*' = true then glob p.data s.data else (p == s) := by
  unfold matchSubject
  by_cases hc : p.data.contains '*' = true
  · rw [hc, if_neg (show ¬ ((!true) = true) from by simp), if_pos rfl]
    simp only [Match_glob p.data s.data hp]
  · have hc2 : p.data.contains '*' = false := Bool.eq_false_iff.mpr hc
    rw [hc2, if_pos (show (!false) = true from rfl),
      if_neg (show ¬ (false = true) from Bool.false_ne_true)]

/-- C1 (counterexample): the implemented wildcard match is not the
segment-wise rule of the claim.  The pattern `app.*.created` also matches
the subject `app.x.y.created`, whose segment count differs, because the
`*` of `filepath.Match` may span several dot-separated segments. -/
theorem matchSubject_crosses_segments :
    matchSubject "app.*.created" "app.x.y.created" = true ∧
      specSegMatch "app.*.created" "app.x.y.created" = false := by
  constructor
  · decide
  · decide

/-- C1 (amended): a registered pattern without `*` matches exactly the
subject equal to it; a pattern containing `*` (and no other glob
metacharacter) matches a subject iff the declarative glob relation holds,
in which each `*` matches an arbitrary, possibly empty, run of
non-separator characters — so a `*` may span several dot-separated
segments and equal segment counts are not enforced.  The examples listed
in the claim all behave as documented. -/
theorem matchSubject_glob_characterization :
    (∀ p s : String, SimplePat p.data →
        matchSubject p s =
          if p.data.contains '*' = true then glob p.data s.data else (p == s)) ∧
      matchSubject "app.*.created" "app.user.created" = true ∧
      matchSubject "app.*.created" "app.order.created" = true ∧
      matchSubject "app.*.created" "app.user.updated" = false ∧
      matchSubject "app.*.created" "user.created" = false ∧
      matchSubject "app.*.created" "app.user.created.v2" = false := by
  refine ⟨matchSubject_glob, ?_, ?_, ?_, ?_, ?_⟩ <;> decide

/-- Witness for C1: the characterization applied to the documented pattern
and a concrete matching subject. -/
theorem matchSubject_glob_characterization_witness :
    SimplePat ("app.*.created" : String).data ∧
      matchSubject "app.*.created" "app.user.created" =
        if ("app.*.created" : String).data.contains '*' = true then
          glob ("app.*.created" : String).data ("app.user.created" : String).data
        else (("app.*.created" : String) == "app.user.created") :=
  ⟨by decide, matchSubject_glob_characterization.1 "app.*.created" "app.user.created"
    (by decide)⟩

end EventBus
